import Mathlib

/-!
Shallow embedding of the MemoryAgent tiered memory engine
(`memoryagent/models.py`, `utils.py`, `confidence.py`, `policy.py`,
`storage/in_memory.py`, `storage/local_disk.py`, `retrieval.py`,
`system.py`, `workers.py`) and proofs of the specification claims.

Modelling conventions:
* Python floats are modelled as exact rationals represented by the
  unnormalised fraction type `Frac` (numerator / positive denominator);
  all comparisons cross-multiply, so no gcd normalisation is needed and
  every concrete computation reduces in the kernel.
* Timestamps are rational seconds since the epoch; the archiver's daily
  date path `%Y/%m/%d` is modelled by the epoch day index, which
  distinguishes calendar days exactly as the source format does.
* UUIDs are opaque strings; the asynchronous methods are modelled as
  pure state-passing functions; Python exceptions (the `TypeError`
  raised by `SimpleVectorIndex.query` on a `None` types filter, and the
  `json.loads` failure in `FileObjectStore.get`) are modelled with
  `Except String`.
* JSON payloads (and the `Any`-typed `content` field) are modelled by
  the inductive `JsonVal`; Python `None` is `MemoryItem.content = none`.
-/

/-- Exact rational arithmetic standing in for Python floats: an
unnormalised fraction with (by construction at every use site) a
positive denominator. -/
structure Frac where
  num : Int
  den : Int
  deriving DecidableEq, Repr

instance : LE Frac := ⟨fun a b => a.num * b.den ≤ b.num * a.den⟩

instance : LT Frac := ⟨fun a b => a.num * b.den < b.num * a.den⟩

instance (a b : Frac) : Decidable (a ≤ b) :=
  inferInstanceAs (Decidable (a.num * b.den ≤ b.num * a.den))

instance (a b : Frac) : Decidable (a < b) :=
  inferInstanceAs (Decidable (a.num * b.den < b.num * a.den))

instance : Add Frac := ⟨fun a b => ⟨a.num * b.den + b.num * a.den, a.den * b.den⟩⟩

instance : Sub Frac := ⟨fun a b => ⟨a.num * b.den - b.num * a.den, a.den * b.den⟩⟩

instance : Mul Frac := ⟨fun a b => ⟨a.num * b.num, a.den * b.den⟩⟩

/-- Division; keeps the denominator positive, returns 0 on division by
zero (call sites in the source always guard the zero case). -/
def Frac.div (a b : Frac) : Frac :=
  if b.num = 0 then ⟨0, 1⟩
  else if b.num < 0 then ⟨-(a.num * b.den), a.den * (-b.num)⟩
  else ⟨a.num * b.den, a.den * b.num⟩

def Frac.fmin (a b : Frac) : Frac := if a ≤ b then a else b

def Frac.fmax (a b : Frac) : Frac := if a ≤ b then b else a

def Frac.ofNat (n : Nat) : Frac := ⟨n, 1⟩

/-- `utils.clamp(value, low=0.0, high=1.0)`: `max(low, min(high, value))`. -/
def clamp (value : Frac) : Frac :=
  Frac.fmax ⟨0, 1⟩ (Frac.fmin ⟨1, 1⟩ value)

/-- `utils.safe_div`: `numerator / denominator if denominator else 0.0`. -/
def safe_div (numerator denominator : Frac) : Frac :=
  if denominator.num = 0 then ⟨0, 1⟩ else Frac.div numerator denominator

/-- `utils._WORD_RE = [a-zA-Z0-9']+`: one character of a token. -/
def isWordChar (c : Char) : Bool :=
  (decide ('a' ≤ c) && decide (c ≤ 'z')) ||
  (decide ('A' ≤ c) && decide (c ≤ 'Z')) ||
  (decide ('0' ≤ c) && decide (c ≤ '9')) ||
  c == '\''

def tokenizeGo : List Char → List Char → List String
  | [], cur => if cur.isEmpty then [] else [String.mk cur.reverse]
  | c :: rest, cur =>
    if isWordChar c then tokenizeGo rest (c.toLower :: cur)
    else if cur.isEmpty then tokenizeGo rest []
    else String.mk cur.reverse :: tokenizeGo rest []

/-- `utils.tokenize`: maximal `[a-zA-Z0-9']+` runs, lower-cased. -/
def tokenize (s : String) : List String := tokenizeGo s.data []

def dedupGo (seen : List String) : List String → List String
  | [] => []
  | x :: xs => if seen.contains x then dedupGo seen xs else x :: dedupGo (x :: seen) xs

/-- `utils.unique_tokens`: the token set, as a duplicate-free list in
first-occurrence order. -/
def unique_tokens (s : String) : List String := dedupGo [] (tokenize s)

/-- Set union on duplicate-free token lists (`covered |= ...`). -/
def unionTokens (a b : List String) : List String :=
  a ++ b.filter (fun x => !(a.contains x))

/-- Decimal printer for `Nat` (fuel-structured so it reduces in the
kernel); used to model Python `str()` on numbers. -/
def natStrGo : Nat → Nat → String
  | 0, _ => ""
  | _ + 1, n =>
    if n < 10 then String.mk [Char.ofNat (48 + n % 10)]
    else (natStrGo n (n / 10)) ++ String.mk [Char.ofNat (48 + n % 10)]

def natStr (n : Nat) : String := natStrGo (n + 1) n

def intStr : Int → String
  | .ofNat n => natStr n
  | .negSucc n => "-" ++ natStr (n + 1)

def fracStr (q : Frac) : String :=
  if q.den = 1 then intStr q.num else intStr q.num ++ "/" ++ intStr q.den

/-- JSON-like values: the shape of everything stored in the object
store and of the `Any`-typed `content` payload. -/
inductive JsonVal where
  | null
  | jbool (b : Bool)
  | num (q : Frac)
  | str (s : String)
  | arr (xs : List JsonVal)
  | obj (fields : List (String × JsonVal))

mutual

/-- Python `str()` on a parsed-JSON value, as used by
`MemoryEvent.to_item` to default the summary. -/
def pyStr : JsonVal → String
  | .null => "None"
  | .jbool true => "True"
  | .jbool false => "False"
  | .num q => fracStr q
  | .str s => s
  | .arr xs => "[" ++ pyStrList xs ++ "]"
  | .obj fs => "\x7b" ++ pyStrFields fs ++ "\x7d"

def pyStrList : List JsonVal → String
  | [] => ""
  | [x] => pyStr x
  | x :: xs => pyStr x ++ ", " ++ pyStrList xs

def pyStrFields : List (String × JsonVal) → String
  | [] => ""
  | [(k, v)] => k ++ ": " ++ pyStr v
  | (k, v) :: fs => k ++ ": " ++ pyStr v ++ ", " ++ pyStrFields fs

end

/-- Lookup of a key in a JSON object (`dict.get`). -/
def objLookup (key : String) : List (String × JsonVal) → Option JsonVal
  | [] => none
  | (k, v) :: fs => if k = key then some v else objLookup key fs

/-- `models.MemoryType`. -/
inductive MemoryType where
  | working
  | episodic
  | semantic
  | perceptual
  deriving DecidableEq, Repr

def MemoryType.value : MemoryType → String
  | .working => "working"
  | .episodic => "episodic"
  | .semantic => "semantic"
  | .perceptual => "perceptual"

/-- `models.StorageTier`. -/
inductive StorageTier where
  | hot
  | cold
  | archive_index
  deriving DecidableEq, Repr

def StorageTier.value : StorageTier → String
  | .hot => "hot"
  | .cold => "cold"
  | .archive_index => "archive_index"

/-- `StorageTier(s)` on the strings produced by `StorageTier.value`
(the source only ever parses those three strings back). -/
def tierFromValue (s : String) : StorageTier :=
  if s = "hot" then .hot else if s = "cold" then .cold else .archive_index

/-- `models.MemoryItem`: the canonical record.  The `pointer` dict is
modelled by its two used keys; `content = none` is Python `None`. -/
structure MemoryItem where
  id : String
  type : MemoryType
  owner : String
  summary : String
  created_at : Frac
  updated_at : Frac
  last_accessed : Option Frac := none
  tier : StorageTier := .hot
  pointer_object_key : Option String := none
  pointer_archive_key : Option String := none
  content : Option JsonVal := none
  tags : List String := []
  ttl_seconds : Option Frac := none
  confidence : Frac := ⟨1, 2⟩
  authority : Frac := ⟨1, 2⟩
  stability : Frac := ⟨1, 2⟩

/-- `MemoryItem.is_expired(now)`. -/
def MemoryItem.is_expired (item : MemoryItem) (now : Frac) : Bool :=
  match item.ttl_seconds with
  | none => false
  | some ttl => item.created_at + ttl ≤ now

/-- `MemoryItem.text()`: the content when it is a plain string, else
the summary. -/
def MemoryItem.text (item : MemoryItem) : String :=
  match item.content with
  | some (.str s) => s
  | _ => item.summary

/-- `models.MemoryEvent`: developer-facing input; `content` mandatory
(possibly the JSON null, i.e. Python `None`), `summary` optional. -/
structure MemoryEvent where
  content : JsonVal
  type : MemoryType := .working
  owner : String
  summary : Option String := none
  tags : List String := []
  ttl_seconds : Option Frac := none
  confidence : Frac := ⟨1, 2⟩
  authority : Frac := ⟨1, 2⟩
  stability : Frac := ⟨1, 2⟩
  pointer_object_key : Option String := none
  pointer_archive_key : Option String := none

/-- The defaulted summary of `MemoryEvent.to_item`:
`self.content if isinstance(self.content, str) else str(self.content)`. -/
def MemoryEvent.defaultSummary (e : MemoryEvent) : String :=
  match e.content with
  | .str s => s
  | c => pyStr c

/-- `MemoryEvent.to_item()`; the fresh UUID and creation instant are
passed explicitly.  `self.summary or (...)` treats both `None` and the
empty string as absent. -/
def MemoryEvent.to_item (e : MemoryEvent) (id : String) (now : Frac) : MemoryItem :=
  let summary :=
    match e.summary with
    | some s => if s = "" then e.defaultSummary else s
    | none => e.defaultSummary
  { id := id
    type := e.type
    owner := e.owner
    summary := summary
    created_at := now
    updated_at := now
    content := (match e.content with | .null => none | c => some c)
    tags := e.tags
    ttl_seconds := e.ttl_seconds
    confidence := e.confidence
    authority := e.authority
    stability := e.stability
    pointer_object_key := e.pointer_object_key
    pointer_archive_key := e.pointer_archive_key }

/-- `models.MemoryQuery`. -/
structure MemoryQuery where
  text : String
  owner : String
  types : Option (List MemoryType) := none
  top_k : Nat := 10
  time_range_seconds : Option Frac := none

/-- `models.RetrievalPlan` with its source defaults. -/
structure RetrievalPlan where
  hot_top_k : Nat := 30
  archive_top_k : Nat := 30
  cold_fetch_limit : Nat := 20
  cold_fetch_min_score : Frac := ⟨25, 100⟩
  hot_confidence : Frac := ⟨62, 100⟩
  archive_confidence : Frac := ⟨72, 100⟩
  cold_fetch_confidence : Frac := ⟨58, 100⟩
  max_results : Nat := 50
  max_context_tokens : Nat := 600

/-- `models.ScoredMemory`. -/
structure ScoredMemory where
  item : MemoryItem
  score : Frac
  tier : StorageTier
  explanation : Option String := none

/-- `models.ConfidenceReport`. -/
structure ConfidenceReport where
  total : Frac
  semantic_relevance : Frac
  coverage : Frac
  temporal_fit : Frac
  authority : Frac
  consistency : Frac
  recommendation : String

/-- `models.MemoryBlock`; its `metadata` dict `{owner, tags}` is
modelled by the two fields. -/
structure MemoryBlock where
  text : String
  item_id : String
  memory_type : MemoryType
  tier : StorageTier
  score : Frac
  metadata_owner : String
  metadata_tags : List String

/-- `models.RetrievalTrace`. -/
structure RetrievalTrace where
  steps : List String := []
  escalations : List String := []
  sources : List String := []

/-- `models.MemoryBundle`. -/
structure MemoryBundle where
  query : String
  results : List ScoredMemory
  blocks : List MemoryBlock
  confidence : ConfidenceReport
  used_tiers : List StorageTier
  trace : RetrievalTrace
  warnings : List String := []

def fracSum (l : List Frac) : Frac := l.foldl (fun a b => a + b) ⟨0, 1⟩

/-- Arithmetic mean of a non-empty list (`sum(xs) / len(xs)`). -/
def fracMean (l : List Frac) : Frac := Frac.div (fracSum l) ⟨l.length, 1⟩

/-- `confidence._semantic_relevance`. -/
def _semantic_relevance (results : List ScoredMemory) : Frac :=
  if results.isEmpty then ⟨0, 1⟩
  else fracMean ((results.take 5).map (fun r => r.score))

/-- `confidence._coverage`. -/
def _coverage (query : MemoryQuery) (results : List ScoredMemory) : Frac :=
  let query_tokens := unique_tokens query.text
  if query_tokens.isEmpty then ⟨0, 1⟩
  else
    let covered := (results.take 5).foldl
      (fun acc r => unionTokens acc (unique_tokens r.item.text)) []
    safe_div ⟨(query_tokens.filter (fun t => covered.contains t)).length, 1⟩
      ⟨query_tokens.length, 1⟩

/-- `confidence._temporal_fit` (the `datetime.now` instant is passed
explicitly). -/
def _temporal_fit (results : List ScoredMemory) (now : Frac) : Frac :=
  if results.isEmpty then ⟨0, 1⟩
  else
    fracMean ((results.take 5).map (fun r =>
      let age_days := Frac.fmax ⟨0, 1⟩ (Frac.div (now - r.item.created_at) ⟨86400, 1⟩)
      Frac.div ⟨1, 1⟩ (⟨1, 1⟩ + age_days)))

/-- `confidence._authority`. -/
def _authority (results : List ScoredMemory) : Frac :=
  if results.isEmpty then ⟨0, 1⟩
  else fracMean ((results.take 5).map (fun r =>
    (⟨1, 2⟩ : Frac) * r.item.authority + (⟨1, 2⟩ : Frac) * r.item.stability))

def interTokens (a b : List String) : List String :=
  a.filter (fun x => b.contains x)

/-- `confidence._consistency`. -/
def _consistency (results : List ScoredMemory) : Frac :=
  if results.length < 2 then ⟨1, 2⟩
  else
    let tag_sets := ((results.take 5).filter (fun r => !r.item.tags.isEmpty)).map
      (fun r => dedupGo [] r.item.tags)
    match tag_sets with
    | [] => ⟨4, 10⟩
    | t :: ts =>
      let overlap := ts.foldl interTokens t
      let union := ts.foldl unionTokens t
      safe_div ⟨overlap.length, 1⟩ ⟨union.length, 1⟩

/-- The recommendation if-chain at the end of
`confidence.evaluate_confidence`. -/
def recommendationFor (total : Frac) : String :=
  if (⟨75, 100⟩ : Frac) ≤ total then "accept"
  else if (⟨6, 10⟩ : Frac) ≤ total then "escalate_archive"
  else if (⟨45, 100⟩ : Frac) ≤ total then "fetch_cold"
  else "uncertain"

/-- `confidence.evaluate_confidence`. -/
def evaluate_confidence (query : MemoryQuery) (results : List ScoredMemory)
    (now : Frac) : ConfidenceReport :=
  let semantic := _semantic_relevance results
  let coverage := _coverage query results
  let temporal := _temporal_fit results now
  let authority := _authority results
  let consistency := _consistency results
  let total := clamp ((⟨35, 100⟩ : Frac) * semantic + (⟨2, 10⟩ : Frac) * coverage +
    (⟨2, 10⟩ : Frac) * temporal + (⟨15, 100⟩ : Frac) * authority +
    (⟨1, 10⟩ : Frac) * consistency)
  let recommendation := recommendationFor total
  { total := total
    semantic_relevance := semantic
    coverage := coverage
    temporal_fit := temporal
    authority := authority
    consistency := consistency
    recommendation := recommendation }

theorem recommendationFor_bands (t : Frac) :
    (recommendationFor t = "accept" ↔ (⟨75, 100⟩ : Frac) ≤ t) ∧
    (recommendationFor t = "escalate_archive" ↔
      ¬ (⟨75, 100⟩ : Frac) ≤ t ∧ (⟨6, 10⟩ : Frac) ≤ t) ∧
    (recommendationFor t = "fetch_cold" ↔
      ¬ (⟨75, 100⟩ : Frac) ≤ t ∧ ¬ (⟨6, 10⟩ : Frac) ≤ t ∧
        (⟨45, 100⟩ : Frac) ≤ t) ∧
    (recommendationFor t = "uncertain" ↔
      ¬ (⟨75, 100⟩ : Frac) ≤ t ∧ ¬ (⟨6, 10⟩ : Frac) ≤ t ∧
        ¬ (⟨45, 100⟩ : Frac) ≤ t) := by
  unfold recommendationFor
  split_ifs <;> simp_all

/-- C4: the confidence total is the clamped weighted blend
`0.35·sem + 0.20·cov + 0.20·temp + 0.15·auth + 0.10·cons` of the five
sub-scores reported alongside it, and the recommendation bands are
`accept ≥ 0.75`, `escalate_archive ≥ 0.60`, `fetch_cold ≥ 0.45`, else
`uncertain`. -/
theorem confidence_total_and_bands (query : MemoryQuery)
    (results : List ScoredMemory) (now : Frac) :
    (evaluate_confidence query results now).total =
      clamp ((⟨35, 100⟩ : Frac) * (evaluate_confidence query results now).semantic_relevance +
        (⟨2, 10⟩ : Frac) * (evaluate_confidence query results now).coverage +
        (⟨2, 10⟩ : Frac) * (evaluate_confidence query results now).temporal_fit +
        (⟨15, 100⟩ : Frac) * (evaluate_confidence query results now).authority +
        (⟨1, 10⟩ : Frac) * (evaluate_confidence query results now).consistency) ∧
    ((evaluate_confidence query results now).recommendation = "accept" ↔
      (⟨75, 100⟩ : Frac) ≤ (evaluate_confidence query results now).total) ∧
    ((evaluate_confidence query results now).recommendation = "escalate_archive" ↔
      ¬ (⟨75, 100⟩ : Frac) ≤ (evaluate_confidence query results now).total ∧
        (⟨6, 10⟩ : Frac) ≤ (evaluate_confidence query results now).total) ∧
    ((evaluate_confidence query results now).recommendation = "fetch_cold" ↔
      ¬ (⟨75, 100⟩ : Frac) ≤ (evaluate_confidence query results now).total ∧
        ¬ (⟨6, 10⟩ : Frac) ≤ (evaluate_confidence query results now).total ∧
          (⟨45, 100⟩ : Frac) ≤ (evaluate_confidence query results now).total) ∧
    ((evaluate_confidence query results now).recommendation = "uncertain" ↔
      ¬ (⟨75, 100⟩ : Frac) ≤ (evaluate_confidence query results now).total ∧
        ¬ (⟨6, 10⟩ : Frac) ≤ (evaluate_confidence query results now).total ∧
          ¬ (⟨45, 100⟩ : Frac) ≤ (evaluate_confidence query results now).total) := by
  have hrec : (evaluate_confidence query results now).recommendation =
      recommendationFor (evaluate_confidence query results now).total := rfl
  rw [hrec]
  exact ⟨rfl, recommendationFor_bands _⟩

/-- `policy.RoutingDecision`. -/
structure RoutingDecision where
  write_hot : Bool
  write_vector : Bool
  write_features : Bool
  archive_cold : Bool
  reasons : List String

/-- `policy.MemoryRoutingPolicy` constructor defaults. -/
structure MemoryRoutingPolicy where
  hot_min_confidence : Frac := ⟨4, 10⟩
  cold_min_confidence : Frac := ⟨55, 100⟩
  vector_min_confidence : Frac := ⟨5, 10⟩
  feature_min_confidence : Frac := ⟨45, 100⟩

/-- `MemoryRoutingPolicy.route`. -/
def MemoryRoutingPolicy.route (p : MemoryRoutingPolicy) (item : MemoryItem) :
    RoutingDecision :=
  let confidence := item.confidence
  let write_hot : Bool := p.hot_min_confidence ≤ confidence
  let reasons1 : List String := if write_hot then [] else ["low_confidence_hot"]
  let write_vector : Bool :=
    decide (p.vector_min_confidence ≤ confidence) && decide (item.type ≠ .working)
  let reasons2 := if write_vector then reasons1 else reasons1 ++ ["skip_vector"]
  let write_features : Bool :=
    decide (item.type = .perceptual) && decide (p.feature_min_confidence ≤ confidence)
  let reasons3 :=
    if !write_features && item.type = .perceptual then reasons2 ++ ["skip_features"]
    else reasons2
  let archive_cold : Bool :=
    decide (item.type = .episodic ∨ item.type = .semantic ∨ item.type = .perceptual) &&
      decide (p.cold_min_confidence ≤ confidence)
  let reasons4 := if archive_cold then reasons3 else reasons3 ++ ["skip_cold"]
  { write_hot := write_hot
    write_vector := write_vector
    write_features := write_features
    archive_cold := archive_cold
    reasons := reasons4 }

/-- Metadata entry recorded with each `SimpleVectorIndex.upsert`
(`{owner, tier, type, item}`; tier and type are the enum `.value`
strings, as in the source). -/
structure VMeta where
  owner : String
  tier : String
  type : String
  item : MemoryItem

/-- `storage.in_memory.SimpleVectorIndex` state: the inverted token
index `_tokens` (which `upsert` never prunes, so stale tokens of
earlier texts survive re-upserts, as in the source), the latest texts
and the latest metadata, all in dict insertion order. -/
structure SimpleVectorIndex where
  tokens : List (String × List String) := []
  texts : List (String × String) := []
  metadata : List (String × VMeta) := []

def assocFind {α : Type} (key : String) : List (String × α) → Option α
  | [] => none
  | (k, v) :: rest => if k = key then some v else assocFind key rest

/-- Replace the value at a key, keeping its position (Python dict
update), appending when absent. -/
def assocSet {α : Type} (key : String) (value : α) : List (String × α) → List (String × α)
  | [] => [(key, value)]
  | (k, v) :: rest =>
    if k = key then (k, value) :: rest else (k, v) :: assocSet key value rest

/-- Add an id to one token's posting list if absent
(`if item_id not in self._tokens[token]: append`). -/
def postTokens (item_id : String) (tokensMap : List (String × List String))
    (token : String) : List (String × List String) :=
  match assocFind token tokensMap with
  | none => tokensMap ++ [(token, [item_id])]
  | some ids =>
    if ids.contains item_id then tokensMap
    else assocSet token (ids ++ [item_id]) tokensMap

/-- `SimpleVectorIndex.upsert(item_id, text, metadata)`. -/
def SimpleVectorIndex.upsert (V : SimpleVectorIndex) (item_id : String)
    (text : String) (meta : VMeta) : SimpleVectorIndex :=
  { tokens := (dedupGo [] (tokenize text)).foldl (postTokens item_id) V.tokens
    texts := assocSet item_id text V.texts
    metadata := assocSet item_id meta V.metadata }

/-- The `filters` dict passed to `VectorIndex.query`; every call site in
`retrieval.py` populates all three keys, `types` possibly with Python
`None` (modelled by `none`). -/
structure VFilters where
  owner : String
  tier : String
  types : Option (List MemoryType)

/-- Accumulate `candidate_scores`: a pass over the query tokens bumping
each posting-list id (dict keyed by id, insertion order). -/
def candidateScores (V : SimpleVectorIndex) (qtokens : List String) :
    List (String × Nat) :=
  qtokens.foldl
    (fun acc token =>
      (match assocFind token V.tokens with
       | none => []
       | some ids => ids).foldl
        (fun acc2 item_id =>
          match assocFind item_id acc2 with
          | none => acc2 ++ [(item_id, 1)]
          | some n => assocSet item_id (n + 1) acc2)
        acc)
    []

/-- Stable descending insertion by a rational key: the element is
placed after every earlier element with an equal or larger key
(Python's stable `sort(..., reverse=True)`). -/
def insertDescBy {α : Type} (key : α → Frac) (x : α) : List α → List α
  | [] => [x]
  | y :: ys => if key y < key x then x :: y :: ys else y :: insertDescBy key x ys

def sortDescBy {α : Type} (key : α → Frac) (l : List α) : List α :=
  l.foldl (fun acc x => insertDescBy key x acc) []

/-- The per-candidate filter/score loop of `SimpleVectorIndex.query`.
When the `types` filter key holds Python `None`, building the set
`{t.value for t in filters["types"]}` raises `TypeError`; this is the
error case. -/
def scoreCandidates (V : SimpleVectorIndex) (f : VFilters) (qlen : Nat) :
    List (String × Nat) → Except String (List ScoredMemory)
  | [] => .ok []
  | (item_id, overlap) :: rest =>
    match assocFind item_id V.metadata with
    | none => scoreCandidates V f qlen rest
    | some meta =>
      if meta.owner ≠ f.owner then scoreCandidates V f qlen rest
      else if meta.tier ≠ f.tier then scoreCandidates V f qlen rest
      else
        match f.types with
        | none => .error "TypeError: NoneType is not iterable"
        | some ts =>
          if meta.type ∈ ts.map MemoryType.value then
            match scoreCandidates V f qlen rest with
            | .error e => .error e
            | .ok scored =>
              .ok ({ item := meta.item
                     score := Frac.div ⟨overlap, 1⟩ ⟨max 1 qlen, 1⟩
                     tier := if meta.tier = "" then meta.item.tier
                             else tierFromValue meta.tier
                     explanation := some "token overlap" } :: scored)
          else scoreCandidates V f qlen rest

/-- `SimpleVectorIndex.query(query, filters, limit)`. -/
def SimpleVectorIndex.query (V : SimpleVectorIndex) (query : MemoryQuery)
    (f : VFilters) (limit : Nat) : Except String (List ScoredMemory) :=
  let query_tokens := dedupGo [] (tokenize query.text)
  if query_tokens.isEmpty then .ok []
  else
    match scoreCandidates V f query_tokens.length (candidateScores V query_tokens) with
    | .error e => .error e
    | .ok scored => .ok ((sortDescBy (fun r => r.score) scored).take limit)

/-- `storage.local_disk.SQLiteMetadataStore`, abstracted to its
contract: an id-keyed table in insertion order. -/
abbrev MetadataStore : Type := List (String × MemoryItem)

/-- `SQLiteMetadataStore.upsert` (it also bumps `updated_at` to the
upsert instant, as `_upsert_sync` does). -/
def metaUpsert (M : MetadataStore) (item : MemoryItem) (now : Frac) : MetadataStore :=
  assocSet item.id { item with updated_at := now } M

def metaGet (M : MetadataStore) (item_id : String) : Option MemoryItem :=
  assocFind item_id M

def metaDelete (M : MetadataStore) (item_id : String) : MetadataStore :=
  M.filter (fun kv => kv.1 ≠ item_id)

def metaListByOwner (M : MetadataStore) (owner : String) : List MemoryItem :=
  (M.map (fun kv => kv.2)).filter (fun item => item.owner = owner)

/-- `storage.in_memory.SimpleGraphStore`: `_edges` maps the string key
`owner:subject:predicate` to the appended objects. -/
abbrev SimpleGraphStore : Type := List (String × List String)

def graphUpsertFact (G : SimpleGraphStore) (owner subject predicate obj : String) :
    SimpleGraphStore :=
  let key := owner ++ ":" ++ subject ++ ":" ++ predicate
  match assocFind key G with
  | none => G ++ [(key, [obj])]
  | some objs => assocSet key (objs ++ [obj]) G

/-- `storage.local_disk.SQLiteFeatureStore` rows `(owner, created_at,
payload)` in insertion order. -/
abbrev FeatureStore : Type := List (String × Frac × JsonVal)

def featureWrite (F : FeatureStore) (owner : String) (payload : JsonVal)
    (now : Frac) : FeatureStore :=
  F ++ [(owner, now, payload)]

/-- `indexers.EpisodicIndexer.index_hot`: upsert the full text under
tier `hot`. -/
def index_hot (V : SimpleVectorIndex) (item : MemoryItem) : SimpleVectorIndex :=
  V.upsert item.id item.text
    { owner := item.owner, tier := StorageTier.hot.value,
      type := item.type.value, item := item }

/-- `indexers.EpisodicIndexer.index_archive`: upsert only the summary
under tier `archive_index`. -/
def index_archive (V : SimpleVectorIndex) (item : MemoryItem) : SimpleVectorIndex :=
  V.upsert item.id item.summary
    { owner := item.owner, tier := StorageTier.archive_index.value,
      type := item.type.value, item := item }

/-- `indexers.SemanticGraphIndexer.index`: only semantic items with at
least two tags produce `related_to` edges. -/
def semanticGraphIndex (G : SimpleGraphStore) (item : MemoryItem) : SimpleGraphStore :=
  if item.type ≠ .semantic then G
  else if item.tags.length < 2 then G
  else
    match item.tags with
    | [] => G
    | subject :: rest =>
      rest.foldl (fun g tag => graphUpsertFact g item.owner subject "related_to" tag) G

/-- `indexers.PerceptualIndexer.index`: only perceptual items write a
`{summary, tags, confidence}` feature row. -/
def perceptualIndex (F : FeatureStore) (item : MemoryItem) (now : Frac) : FeatureStore :=
  if item.type ≠ .perceptual then F
  else featureWrite F item.owner
    (.obj [("summary", .str item.summary),
           ("tags", .arr (item.tags.map JsonVal.str)),
           ("confidence", .num item.confidence)])
    now

/-- `config.MemorySystemConfig` restricted to the options the modelled
core reads. -/
structure MemorySystemConfig where
  working_ttl_seconds : Frac := ⟨3600, 1⟩
  retrieval_plan : RetrievalPlan := {}
  archive_on_flush : Bool := true
  semantic_min_count : Nat := 2
  perceptual_summary_limit : Nat := 5

/-- The back-end state wired together by `system.MemorySystem`
(object store omitted; `write_async` never touches it). -/
structure MemorySystemState where
  metadata_store : MetadataStore
  vector_index : SimpleVectorIndex
  graph_store : SimpleGraphStore
  feature_store : FeatureStore

/-- `MemorySystem.write_async` on an already-coerced `MemoryItem`:
default the working TTL, route, then fan out to the back-ends gated by
the decision flags; the semantic graph indexer runs unconditionally. -/
def write_async (cfg : MemorySystemConfig) (pol : MemoryRoutingPolicy)
    (S : MemorySystemState) (event : MemoryItem) (now : Frac) :
    MemorySystemState × MemoryItem :=
  let item :=
    if event.type = .working ∧ event.ttl_seconds = none then
      { event with ttl_seconds := some cfg.working_ttl_seconds }
    else event
  let decision := pol.route item
  ({ metadata_store :=
       if decision.write_hot then metaUpsert S.metadata_store item now
       else S.metadata_store
     vector_index :=
       if decision.write_vector then index_hot S.vector_index item
       else S.vector_index
     graph_store := semanticGraphIndex S.graph_store item
     feature_store :=
       if decision.write_features then perceptualIndex S.feature_store item now
       else S.feature_store }, item)

def defaultRoutingPolicy : MemoryRoutingPolicy := {}

theorem route_ignores_ttl (pol : MemoryRoutingPolicy) (event : MemoryItem)
    (ttl : Option Frac) :
    pol.route { event with ttl_seconds := ttl } = pol.route event := rfl

/-- C3: the back-ends touched by `write_async` are exactly the ones
gated by `route(item)`: the metadata store iff `write_hot`
(confidence ≥ 0.40), the vector index iff `write_vector`
(confidence ≥ 0.50 and non-working type), the feature store iff
`write_features` (perceptual and confidence ≥ 0.45), and the semantic
graph indexer runs on every write, internally a no-op except on
semantic items with at least two tags. -/
theorem write_fanout_matches_routing (cfg : MemorySystemConfig)
    (S : MemorySystemState) (event : MemoryItem) (now : Frac) :
    (write_async cfg defaultRoutingPolicy S event now).1.metadata_store =
      (if (defaultRoutingPolicy.route (write_async cfg defaultRoutingPolicy S event now).2).write_hot
       then metaUpsert S.metadata_store (write_async cfg defaultRoutingPolicy S event now).2 now
       else S.metadata_store) ∧
    (write_async cfg defaultRoutingPolicy S event now).1.vector_index =
      (if (defaultRoutingPolicy.route (write_async cfg defaultRoutingPolicy S event now).2).write_vector
       then index_hot S.vector_index (write_async cfg defaultRoutingPolicy S event now).2
       else S.vector_index) ∧
    (write_async cfg defaultRoutingPolicy S event now).1.feature_store =
      (if (defaultRoutingPolicy.route (write_async cfg defaultRoutingPolicy S event now).2).write_features
       then perceptualIndex S.feature_store (write_async cfg defaultRoutingPolicy S event now).2 now
       else S.feature_store) ∧
    (write_async cfg defaultRoutingPolicy S event now).1.graph_store =
      semanticGraphIndex S.graph_store (write_async cfg defaultRoutingPolicy S event now).2 ∧
    (defaultRoutingPolicy.route (write_async cfg defaultRoutingPolicy S event now).2).write_hot =
      decide ((⟨4, 10⟩ : Frac) ≤ (write_async cfg defaultRoutingPolicy S event now).2.confidence) ∧
    (defaultRoutingPolicy.route (write_async cfg defaultRoutingPolicy S event now).2).write_vector =
      (decide ((⟨5, 10⟩ : Frac) ≤ (write_async cfg defaultRoutingPolicy S event now).2.confidence) &&
        decide ((write_async cfg defaultRoutingPolicy S event now).2.type ≠ .working)) ∧
    (defaultRoutingPolicy.route (write_async cfg defaultRoutingPolicy S event now).2).write_features =
      (decide ((write_async cfg defaultRoutingPolicy S event now).2.type = .perceptual) &&
        decide ((⟨45, 100⟩ : Frac) ≤ (write_async cfg defaultRoutingPolicy S event now).2.confidence)) ∧
    semanticGraphIndex S.graph_store (write_async cfg defaultRoutingPolicy S event now).2 =
      (if (write_async cfg defaultRoutingPolicy S event now).2.type = .semantic ∧
          2 ≤ (write_async cfg defaultRoutingPolicy S event now).2.tags.length
       then semanticGraphIndex S.graph_store (write_async cfg defaultRoutingPolicy S event now).2
       else S.graph_store) ∧
    defaultRoutingPolicy.route (write_async cfg defaultRoutingPolicy S event now).2 =
      defaultRoutingPolicy.route event := by
  refine ⟨rfl, rfl, rfl, rfl, rfl, rfl, rfl, ?_, ?_⟩
  · set it := (write_async cfg defaultRoutingPolicy S event now).2 with hit
    by_cases h : it.type = .semantic ∧ 2 ≤ it.tags.length
    · rw [if_pos h]
    · rw [if_neg h]
      unfold semanticGraphIndex
      by_cases ht : it.type = .semantic
      · have hlen : it.tags.length < 2 := by
          rcases Decidable.not_and_iff_or_not.mp h with h1 | h2
          · exact absurd ht h1
          · omega
        rw [if_neg (not_not_intro ht), if_pos hlen]
      · rw [if_pos ht]
  · show defaultRoutingPolicy.route (if _ then _ else _) = _
    split
    · exact route_ignores_ttl _ _ _
    · rfl

theorem string_append_ne_empty_right (a b : String) (hb : b ≠ "") : a ++ b ≠ "" := by
  intro h
  apply hb
  have := congrArg String.data h
  simp only [String.data_append] at this
  rcases List.append_eq_nil.mp this with ⟨_, h2⟩
  cases b
  simp_all [String.data]

theorem mk_singleton_ne_empty (c : Char) : String.mk [c] ≠ "" := by
  intro h
  have := congrArg String.data h
  simp [String.data] at this

theorem natStr_ne_empty (n : Nat) : natStr n ≠ "" := by
  unfold natStr natStrGo
  split
  · exact mk_singleton_ne_empty _
  · exact string_append_ne_empty_right _ _ (mk_singleton_ne_empty _)

theorem intStr_ne_empty (i : Int) : intStr i ≠ "" := by
  cases i
  · exact natStr_ne_empty _
  · exact string_append_ne_empty_right _ _ (natStr_ne_empty _)

theorem fracStr_ne_empty (q : Frac) : fracStr q ≠ "" := by
  unfold fracStr
  split
  · exact intStr_ne_empty _
  · exact string_append_ne_empty_right _ _ (intStr_ne_empty _)

theorem pyStr_ne_empty_of_not_str (c : JsonVal) (h : ∀ s, c ≠ .str s) :
    pyStr c ≠ "" := by
  cases c with
  | null => simp [pyStr]
  | jbool b => cases b <;> simp [pyStr]
  | num q => exact fracStr_ne_empty q
  | str s => exact absurd rfl (h s)
  | arr xs =>
    show "[" ++ pyStrList xs ++ "]" ≠ ""
    exact string_append_ne_empty_right _ _ (by intro h2; have := congrArg String.data h2; simp [String.data] at this)
  | obj fs =>
    show "\x7b" ++ pyStrFields fs ++ "\x7d" ≠ ""
    exact string_append_ne_empty_right _ _ (by intro h2; have := congrArg String.data h2; simp [String.data] at this)

/-- C9 counterexample: the event `{content: "", owner: "u"}` (content
is the empty string, summary absent) yields an item whose summary is
the empty string, refuting "summary is always non-empty". -/
theorem to_item_empty_summary_counterexample :
    (MemoryEvent.to_item { content := .str "", owner := "u" } "id-1" ⟨0, 1⟩).summary = "" := rfl

/-- C9 amended: `to_item` defaults the summary to the stringification
of the content whenever the given summary is absent *or empty*
(Python `or` treats `""` as absent), and the produced summary is
non-empty except in exactly one case: the summary was absent/empty and
the content is the empty string. -/
theorem to_item_summary_default_and_nonempty (e : MemoryEvent) (id : String)
    (now : Frac) :
    (e.summary = none → (e.to_item id now).summary = e.defaultSummary) ∧
    (e.summary = some "" → (e.to_item id now).summary = e.defaultSummary) ∧
    ((e.to_item id now).summary = "" ↔
      (e.summary = none ∨ e.summary = some "") ∧ e.content = .str "") := by
  refine ⟨?_, ?_, ?_⟩
  · intro h
    simp [MemoryEvent.to_item, h]
  · intro h
    simp [MemoryEvent.to_item, h]
  · unfold MemoryEvent.to_item
    have hds : e.defaultSummary = "" ↔ e.content = .str "" := by
      unfold MemoryEvent.defaultSummary
      cases hc : e.content with
      | str s => simp
      | null => simpa using pyStr_ne_empty_of_not_str .null (by intro s h; cases h)
      | jbool b => simpa using pyStr_ne_empty_of_not_str (.jbool b) (by intro s h; cases h)
      | num q => simpa using pyStr_ne_empty_of_not_str (.num q) (by intro s h; cases h)
      | arr xs => simpa using pyStr_ne_empty_of_not_str (.arr xs) (by intro s h; cases h)
      | obj fs => simpa using pyStr_ne_empty_of_not_str (.obj fs) (by intro s h; cases h)
    cases hs : e.summary with
    | none => simpa using hds
    | some s =>
      by_cases hse : s = ""
      · subst hse
        simpa using hds
      · simp [hse]

/-- `s.startswith("/")` stand-in (`Path.is_absolute` on POSIX). -/
def startsWithSlash (s : String) : Bool :=
  match s.data with
  | c :: _ => c == '/'
  | [] => false

/-- `key.endswith(".json")`. -/
def endsWithDotJson (s : String) : Bool :=
  match s.data.reverse with
  | 'n' :: 'o' :: 's' :: 'j' :: '.' :: _ => true
  | _ => false

/-- The content of one on-disk file: either text that fails
`json.loads`, or a parsed JSON value. -/
inductive FileContent where
  | invalid
  | val (j : JsonVal)

/-- `storage.local_disk.FileObjectStore`: a root directory and the
files under it, keyed by physical path. -/
structure FileObjectStore where
  root : String
  files : List (String × FileContent) := []

/-- `FileObjectStore._resolve_path`: add `.json` unless present;
absolute keys are respected literally, relative keys live under the
root. -/
def resolvePath (root key : String) : String :=
  let rel := if endsWithDotJson key then key else key ++ ".json"
  if startsWithSlash rel then rel else root ++ "/" ++ rel

/-- `FileObjectStore.put`: atomically write the payload, returning the
physical path. -/
def objPut (O : FileObjectStore) (key : String) (payload : JsonVal) :
    String × FileObjectStore :=
  let path := resolvePath O.root key
  (path, { O with files := assocSet path (.val payload) O.files })

/-- `FileObjectStore.get`: `None` when the file is missing; re-raises
the `json.loads` failure on invalid content. -/
def objGet (O : FileObjectStore) (key : String) : Except String (Option JsonVal) :=
  match assocFind (resolvePath O.root key) O.files with
  | none => .ok none
  | some .invalid => .error "json.decoder.JSONDecodeError"
  | some (.val j) => .ok (some j)

/-- `FileObjectStore._append_sync`: read the existing list (an unread
file, unparsable text, or a non-list value all reset it to `[]`),
append the payload, and atomically rewrite. -/
def objAppend (O : FileObjectStore) (key : String) (payload : JsonVal) :
    String × FileObjectStore :=
  let path := resolvePath O.root key
  let existing : List JsonVal :=
    match assocFind path O.files with
    | none => []
    | some .invalid => []
    | some (.val (.arr xs)) => xs
    | some (.val _) => []
  (path, { O with files := assocSet path (.val (.arr (existing ++ [payload]))) O.files })

theorem assocFind_assocSet_self {α : Type} (key : String) (value : α)
    (l : List (String × α)) : assocFind key (assocSet key value l) = some value := by
  induction l with
  | nil => simp [assocSet, assocFind]
  | cons kv rest ih =>
    unfold assocSet
    by_cases h : kv.1 = key
    · rw [if_pos h]
      simp [assocFind, h]
    · rw [if_neg h]
      show assocFind key (kv :: assocSet key value rest) = some value
      simp [assocFind, h, ih]

theorem assocFind_assocSet_other {α : Type} (key key' : String) (value : α)
    (l : List (String × α)) (h : key' ≠ key) :
    assocFind key' (assocSet key value l) = assocFind key' l := by
  induction l with
  | nil => simp [assocSet, assocFind, Ne.symm h]
  | cons kv rest ih =>
    unfold assocSet
    by_cases hk : kv.1 = key
    · rw [if_pos hk]
      simp only [assocFind]
      rw [if_neg (by rw [hk]; exact fun hc => h hc.symm), if_neg (by rw [hk]; exact fun hc => h hc.symm)]
    · rw [if_neg hk]
      show assocFind key' (kv :: assocSet key value rest) = _
      unfold assocFind
      split
      · rfl
      · exact ih

/-- C10: when the file behind an object-store key exists but holds
invalid JSON, or a JSON value that is not a list, `append` raises no
error and silently replaces the file with the one-element list holding
only the new payload. -/
theorem append_resets_invalid_file (O : FileObjectStore) (key : String)
    (payload : JsonVal)
    (h : assocFind (resolvePath O.root key) O.files = some .invalid ∨
      ∃ j, assocFind (resolvePath O.root key) O.files = some (.val j) ∧
        ∀ xs, j ≠ .arr xs) :
    (objAppend O key payload).1 = resolvePath O.root key ∧
    assocFind (resolvePath O.root key) (objAppend O key payload).2.files =
      some (.val (.arr [payload])) := by
  unfold objAppend
  refine ⟨rfl, ?_⟩
  have hex : (match assocFind (resolvePath O.root key) O.files with
      | none => ([] : List JsonVal)
      | some .invalid => []
      | some (.val (.arr xs)) => xs
      | some (.val _) => []) = [] := by
    rcases h with h1 | ⟨j, hj, hnl⟩
    · rw [h1]
    · rw [hj]
      cases j with
      | arr xs => exact absurd rfl (hnl xs)
      | null => rfl
      | jbool b => rfl
      | num q => rfl
      | str s => rfl
      | obj fs => rfl
  simp only [hex, List.nil_append]
  exact assocFind_assocSet_self _ _ _

/-- C10 witness: a concrete store whose daily-notes file holds a
non-list JSON object; append replaces it with the singleton list. -/
theorem append_resets_invalid_file_witness :
    (objAppend { root := "/cold", files := [("/cold/u/0/daily_notes.json", .val (.obj [("k", .null)]))] }
        "u/0/daily_notes" (.str "p")).1 = "/cold/u/0/daily_notes.json" ∧
    assocFind "/cold/u/0/daily_notes.json"
      (objAppend { root := "/cold", files := [("/cold/u/0/daily_notes.json", .val (.obj [("k", .null)]))] }
        "u/0/daily_notes" (.str "p")).2.files = some (.val (.arr [.str "p"])) := by
  have h := append_resets_invalid_file
    { root := "/cold", files := [("/cold/u/0/daily_notes.json", .val (.obj [("k", .null)]))] }
    "u/0/daily_notes" (.str "p")
    (by
      right
      refine ⟨.obj [("k", .null)], by rfl, ?_⟩
      intro xs hc
      cases hc)
  have hpath : resolvePath "/cold" "u/0/daily_notes" = "/cold/u/0/daily_notes.json" := rfl
  rw [hpath] at h
  exact h

/-- The hot sweep of `RetrievalOrchestrator.retrieve`: one vector query
per type with filter `{owner, tier=hot, types=[type]}`, concatenated in
type order. -/
def hotSweep (V : SimpleVectorIndex) (query : MemoryQuery) :
    List MemoryType → Nat → Except String (List ScoredMemory)
  | [], _ => .ok []
  | t :: ts, per_type_limit =>
    match V.query query
        { owner := query.owner, tier := StorageTier.hot.value, types := some [t] }
        per_type_limit with
    | .error e => .error e
    | .ok rs =>
      match hotSweep V query ts per_type_limit with
      | .error e => .error e
      | .ok rest => .ok (rs ++ rest)

/-- `next((p for p in payload if p.get("id") == str(item.item.id)), None)`:
scan a daily-notes list for the entry with the given id; a non-dict
entry reached before a hit raises `AttributeError`. -/
def findById (id : String) : List JsonVal → Except String (Option JsonVal)
  | [] => .ok none
  | .obj fs :: rest =>
    match objLookup "id" fs with
    | some (.str s) => if s = id then .ok (some (.obj fs)) else findById id rest
    | _ => findById id rest
  | _ :: _ => .error "AttributeError: get"

/-- The hydrated cold copy
`item.item.model_copy(update={content: payload, tier: cold})` wrapped
as a new `ScoredMemory` with the candidate's score. -/
def mkColdResult (r : ScoredMemory) (payload : JsonVal) : ScoredMemory :=
  { item := { r.item with content := some payload, tier := .cold }
    score := r.score
    tier := .cold
    explanation := some "cold hydrate" }

/-- One iteration of the cold-fetch loop of
`RetrievalOrchestrator.retrieve`: skip (`none`), produce a hydrated
cold result (`.inl`), or record a warning (`.inr`); object-store and
daily-notes failures propagate. -/
def coldOne (O : FileObjectStore) (r : ScoredMemory) :
    Except String (Option (ScoredMemory ⊕ String)) :=
  match r.item.pointer_object_key with
  | none => .ok none
  | some p =>
    if p = "" then .ok none
    else
      match objGet O p with
      | .error e => .error e
      | .ok none => .ok (some (.inr ("Missing cold object: " ++ p)))
      | .ok (some (.arr xs)) =>
        match findById r.item.id xs with
        | .error e => .error e
        | .ok none =>
          .ok (some (.inr ("Missing id " ++ r.item.id ++ " in daily notes: " ++ p)))
        | .ok (some entry) => .ok (some (.inl (mkColdResult r entry)))
      | .ok (some payload) => .ok (some (.inl (mkColdResult r payload)))

/-- The cold-fetch loop of `RetrievalOrchestrator.retrieve`: the cold
results and warnings appended in candidate order. -/
def coldHydrate (O : FileObjectStore) :
    List ScoredMemory → Except String (List ScoredMemory × List String)
  | [] => .ok ([], [])
  | r :: rest =>
    match coldOne O r with
    | .error e => .error e
    | .ok act =>
      match coldHydrate O rest with
      | .error e => .error e
      | .ok (rs, ws) =>
        match act with
        | none => .ok (rs, ws)
        | some (.inl cr) => .ok (cr :: rs, ws)
        | some (.inr w) => .ok (rs, w :: ws)

/-- `RetrievalOrchestrator._hydrate`: replace skeleton items (no
content and no tags) by their metadata-store record when present. -/
def hydrateAll (M : MetadataStore) : List ScoredMemory → List ScoredMemory
  | [] => []
  | r :: rest =>
    if r.item.content.isSome && !r.item.tags.isEmpty then r :: hydrateAll M rest
    else
      match metaGet M r.item.id with
      | none => r :: hydrateAll M rest
      | some full => { r with item := full } :: hydrateAll M rest

/-- The dict fold of `RetrievalOrchestrator._dedupe`: keyed by item id,
keeping the first copy unless a strictly higher-scored one arrives. -/
def dedupeGo (best : List (String × ScoredMemory)) :
    List ScoredMemory → List (String × ScoredMemory)
  | [] => best
  | r :: rest =>
    match assocFind r.item.id best with
    | none => dedupeGo (best ++ [(r.item.id, r)]) rest
    | some prev =>
      if prev.score < r.score then dedupeGo (assocSet r.item.id r best) rest
      else dedupeGo best rest

def dedupe (results : List ScoredMemory) : List ScoredMemory :=
  (dedupeGo [] results).map (fun kv => kv.2)

/-- The rerank key of `RetrievalOrchestrator._rerank`:
`clamp(0.75*score + 0.25*item.confidence)`. -/
def rerankScore (r : ScoredMemory) : Frac :=
  clamp ((⟨75, 100⟩ : Frac) * r.score + (⟨25, 100⟩ : Frac) * r.item.confidence)

/-- `RetrievalOrchestrator._rerank`: stable descending sort by the
rerank key, truncated to `max_results`. -/
def rerank (plan : RetrievalPlan) (results : List ScoredMemory) : List ScoredMemory :=
  (sortDescBy rerankScore results).take plan.max_results

/-- `RetrievalOrchestrator._to_blocks`. -/
def to_blocks (results : List ScoredMemory) : List MemoryBlock :=
  results.map (fun r =>
    { text := r.item.text
      item_id := r.item.id
      memory_type := r.item.type
      tier := r.tier
      score := r.score
      metadata_owner := r.item.owner
      metadata_tags := r.item.tags })

/-- The accumulation state of `retrieve` before the final hydrate /
dedupe / rerank / block-assembly stage. -/
structure RetrievalState where
  results : List ScoredMemory
  confidence : ConfidenceReport
  used_tiers : List StorageTier
  warnings : List String
  trace : RetrievalTrace

/-- All four memory types, the default when the query leaves `types`
unset (used by the hot sweep only; the archive query passes the raw
`query.types`). -/
def allTypes : List MemoryType := [.working, .episodic, .semantic, .perceptual]

def hotTypes (q : MemoryQuery) : List MemoryType := q.types.getD allTypes

/-- `per_type_limit = max(1, hot_top_k // max(1, len(types)))`. -/
def perTypeLimit (plan : RetrievalPlan) (q : MemoryQuery) : Nat :=
  max 1 (plan.hot_top_k / max 1 (hotTypes q).length)

/-- The archive-escalation filters: `{owner, tier=archive_index,
types=query.types}` — note the raw, possibly-`None` `query.types`. -/
def archiveFilters (q : MemoryQuery) : VFilters :=
  { owner := q.owner, tier := StorageTier.archive_index.value, types := q.types }

/-- `results` after the archive stage: hot extended with the archive
rows when any came back. -/
def results2Of (hot archive : List ScoredMemory) : List ScoredMemory :=
  if archive.isEmpty then hot else hot ++ archive

/-- `used_tiers` after the archive stage. -/
def used2Of (archive : List ScoredMemory) : List StorageTier :=
  if archive.isEmpty then [.hot] else [.hot] ++ [.archive_index]

/-- The confidence after the archive stage: re-scored only when any
archive rows came back. -/
def conf2Of (q : MemoryQuery) (now : Frac) (hot archive : List ScoredMemory) :
    ConfidenceReport :=
  if archive.isEmpty then evaluate_confidence q hot now
  else evaluate_confidence q (hot ++ archive) now

/-- `cold_candidates`: archive rows scoring at least
`cold_fetch_min_score`, first `cold_fetch_limit` of them. -/
def coldCandsOf (plan : RetrievalPlan) (archive : List ScoredMemory) :
    List ScoredMemory :=
  (archive.filter (fun r => plan.cold_fetch_min_score ≤ r.score)).take
    plan.cold_fetch_limit

/-- `used_tiers` after the cold stage: `cold` appended iff any
candidate was attempted. -/
def used3Of (plan : RetrievalPlan) (archive : List ScoredMemory) : List StorageTier :=
  if (coldCandsOf plan archive).isEmpty then used2Of archive
  else used2Of archive ++ [.cold]

/-- The confidence after the cold stage. -/
def conf3Of (plan : RetrievalPlan) (q : MemoryQuery) (now : Frac)
    (hot archive cold : List ScoredMemory) : ConfidenceReport :=
  if (coldCandsOf plan archive).isEmpty then conf2Of q now hot archive
  else evaluate_confidence q (results2Of hot archive ++ cold) now

def hotTrace : RetrievalTrace := { steps := ["hot search per type"] }

def archiveEscalatedTrace : RetrievalTrace :=
  { steps := ["hot search per type"],
    escalations := ["hot confidence below threshold; searching archive"] }

def coldEscalatedTrace : RetrievalTrace :=
  { steps := ["hot search per type"],
    escalations := ["hot confidence below threshold; searching archive",
      "archive confidence low; fetching cold payloads"] }

/-- The escalation cascade of `RetrievalOrchestrator.retrieve`: hot
sweep, confidence-gated archive escalation, confidence-gated cold
hydration; each stage value is factored into the named helper above.
Mirrors `retrieval.py` lines 33-96. -/
def retrieveCore (V : SimpleVectorIndex) (O : FileObjectStore)
    (plan : RetrievalPlan) (query : MemoryQuery) (now : Frac) :
    Except String RetrievalState :=
  match hotSweep V query (hotTypes query) (perTypeLimit plan query) with
  | .error e => .error e
  | .ok hot_results =>
    if (evaluate_confidence query hot_results now).total < plan.hot_confidence then
      match V.query query (archiveFilters query) plan.archive_top_k with
      | .error e => .error e
      | .ok archive_results =>
        if (conf2Of query now hot_results archive_results).total <
            plan.cold_fetch_confidence then
          match coldHydrate O (coldCandsOf plan archive_results) with
          | .error e => .error e
          | .ok (cold_results, warnings) =>
            .ok { results := results2Of hot_results archive_results ++ cold_results
                  confidence := conf3Of plan query now hot_results archive_results cold_results
                  used_tiers := used3Of plan archive_results
                  warnings := warnings
                  trace := coldEscalatedTrace }
        else
          .ok { results := results2Of hot_results archive_results
                confidence := conf2Of query now hot_results archive_results
                used_tiers := used2Of archive_results
                warnings := []
                trace := archiveEscalatedTrace }
    else
      .ok { results := hot_results
            confidence := evaluate_confidence query hot_results now
            used_tiers := [.hot]
            warnings := []
            trace := hotTrace }

/-- The final stage of `retrieve`: hydrate skeletons, dedupe, rerank,
assemble blocks and the trace sources. -/
def finishBundle (M : MetadataStore) (plan : RetrievalPlan) (query : MemoryQuery)
    (st : RetrievalState) : MemoryBundle :=
  let reranked := rerank plan (dedupe (hydrateAll M st.results))
  { query := query.text
    results := reranked
    blocks := to_blocks reranked
    confidence := st.confidence
    used_tiers := st.used_tiers
    trace := { st.trace with
      sources := (reranked.take 10).map (fun r =>
        r.item.type.value ++ ":" ++ r.tier.value) }
    warnings := st.warnings }

/-- `RetrievalOrchestrator.retrieve`. -/
def retrieve (M : MetadataStore) (V : SimpleVectorIndex) (O : FileObjectStore)
    (plan : RetrievalPlan) (query : MemoryQuery) (now : Frac) :
    Except String MemoryBundle :=
  match retrieveCore V O plan query now with
  | .error e => .error e
  | .ok st => .ok (finishBundle M plan query st)

/-- The day index of a timestamp: stands in for the `%Y/%m/%d` date
path of `ArchiverWorker.run_once` (same-day keys collide exactly as in
the source). -/
def datePath (t : Frac) : String :=
  intStr (Int.ediv t.num (t.den * 86400))

/-- The daily-notes payload appended by the archiver. -/
def archivePayload (item : MemoryItem) : JsonVal :=
  .obj [("id", .str item.id),
        ("summary", .str item.summary),
        ("content", item.content.getD .null),
        ("tags", .arr (item.tags.map JsonVal.str)),
        ("type", .str item.type.value),
        ("owner", .str item.owner),
        ("created_at", .str (fracStr item.created_at))]

/-- The per-item loop of `ArchiverWorker.run_once`: append the payload
to the owner's daily notes, point the item at the physical and logical
keys, flip it to cold, re-upsert the metadata and index the summary
under `archive_index`. -/
def archiveKeyOf (owner : String) (item : MemoryItem) : String :=
  owner ++ "/" ++ datePath item.created_at ++ "/daily_notes"

/-- The archived copy of an item: pointed at the physical and logical
keys, flipped to cold. -/
def archivedItemOf (owner : String) (now : Frac) (O : FileObjectStore)
    (item : MemoryItem) : MemoryItem :=
  { item with
    pointer_object_key := some (objAppend O (archiveKeyOf owner item) (archivePayload item)).1
    pointer_archive_key := some (archiveKeyOf owner item)
    tier := StorageTier.cold
    updated_at := now }

def archiveItems (owner : String) (now : Frac) :
    List MemoryItem → MetadataStore → FileObjectStore → SimpleVectorIndex →
      MetadataStore × FileObjectStore × SimpleVectorIndex × List MemoryItem
  | [], M, O, V => (M, O, V, [])
  | item :: rest, M, O, V =>
    let item1 := archivedItemOf owner now O item
    let O1 := (objAppend O (archiveKeyOf owner item) (archivePayload item)).2
    match archiveItems owner now rest (metaUpsert M item1 now) O1 (index_archive V item1) with
    | (M2, O2, V2, archived) => (M2, O2, V2, item1 :: archived)

/-- `ArchiverWorker.run_once(owner)`: archive every hot, non-working
item of the owner. -/
def archiverRunOnce (M : MetadataStore) (O : FileObjectStore)
    (V : SimpleVectorIndex) (owner : String) (now : Frac) :
    MetadataStore × FileObjectStore × SimpleVectorIndex × List MemoryItem :=
  let to_archive := (metaListByOwner M owner).filter
    (fun item => item.tier = StorageTier.hot && item.type ≠ MemoryType.working)
  archiveItems owner now to_archive M O V

/-- `Compactor.run_once(owner)`: delete every expired item of the
owner, reporting the removed items. -/
def compactorRunOnce (M : MetadataStore) (owner : String) (now : Frac) :
    MetadataStore × List MemoryItem :=
  let items := metaListByOwner M owner
  (items.foldl (fun acc item =>
      if item.is_expired now then metaDelete acc item.id else acc) M,
   items.filter (fun item => item.is_expired now))

theorem Frac.le_of_not_lt (a b : Frac) (h : ¬ a < b) : b ≤ a := Int.not_lt.mp h

theorem Frac.not_lt_of_le (a b : Frac) (h : a ≤ b) : ¬ b < a := Int.not_lt.mpr h

theorem Frac.le_of_lt (a b : Frac) (h : a < b) : a ≤ b := Int.le_of_lt h

theorem assocFind_mem {α : Type} (key : String) (l : List (String × α)) (v : α)
    (h : assocFind key l = some v) : (key, v) ∈ l := by
  induction l with
  | nil => simp [assocFind] at h
  | cons kv rest ih =>
    unfold assocFind at h
    split at h
    · rename_i heq
      cases h
      have hkv : kv = (key, kv.2) := by rw [← heq]
      exact hkv ▸ List.mem_cons_self _ _
    · exact List.mem_cons_of_mem _ (ih h)

theorem mem_insertDescBy {α : Type} (key : α → Frac) (x y : α) (l : List α)
    (h : x ∈ insertDescBy key y l) : x = y ∨ x ∈ l := by
  induction l with
  | nil => simpa [insertDescBy] using h
  | cons z zs ih =>
    unfold insertDescBy at h
    split at h
    · rcases List.mem_cons.mp h with h | h
      · exact Or.inl h
      · exact Or.inr h
    · rcases List.mem_cons.mp h with h | h
      · exact Or.inr (List.mem_cons.mpr (Or.inl h))
      · rcases ih h with h | h
        · exact Or.inl h
        · exact Or.inr (List.mem_cons_of_mem _ h)

theorem mem_sortDescBy {α : Type} (key : α → Frac) (x : α) (l : List α)
    (h : x ∈ sortDescBy key l) : x ∈ l := by
  suffices hgen : ∀ (l acc : List α), x ∈ l.foldl (fun a y => insertDescBy key y a) acc →
      x ∈ acc ∨ x ∈ l by
    rcases hgen l [] h with h | h
    · simp at h
    · exact h
  intro l
  induction l with
  | nil => intro acc h2; exact Or.inl h2
  | cons z zs ih =>
    intro acc h2
    rcases ih (insertDescBy key z acc) h2 with h3 | h3
    · rcases mem_insertDescBy key x z acc h3 with h4 | h4
      · exact Or.inr (List.mem_cons.mpr (Or.inl h4))
      · exact Or.inl h4
    · exact Or.inr (List.mem_cons_of_mem _ h3)

/-- What every row returned by `SimpleVectorIndex.query` satisfies: it
carries the item of some indexed metadata entry whose `owner` and
`tier` strings passed the filters, its reported tier decoded from the
metadata tier string. -/
def RowFromIndex (V : SimpleVectorIndex) (f : VFilters) (r : ScoredMemory) : Prop :=
  ∃ p, p ∈ V.metadata ∧ r.item = (p.2).item ∧ (p.2).owner = f.owner ∧
    (p.2).tier = f.tier ∧
    r.tier = (if (p.2).tier = "" then (p.2).item.tier else tierFromValue (p.2).tier)

theorem scoreCandidates_sound (V : SimpleVectorIndex) (f : VFilters) (qlen : Nat)
    (cands : List (String × Nat)) (rs : List ScoredMemory)
    (h : scoreCandidates V f qlen cands = .ok rs) :
    ∀ r ∈ rs, RowFromIndex V f r := by
  induction cands generalizing rs with
  | nil =>
    unfold scoreCandidates at h
    cases h
    intro r hr
    simp at hr
  | cons c rest ih =>
    unfold scoreCandidates at h
    cases hfind : assocFind c.1 V.metadata with
    | none =>
      rw [hfind] at h
      exact ih rs h
    | some meta =>
      rw [hfind] at h
      simp only at h
      by_cases hown : meta.owner ≠ f.owner
      · rw [if_pos hown] at h
        exact ih rs h
      · rw [if_neg hown] at h
        by_cases htier : meta.tier ≠ f.tier
        · rw [if_pos htier] at h
          exact ih rs h
        · rw [if_neg htier] at h
          cases hts : f.types with
          | none =>
            rw [hts] at h
            cases h
          | some ts =>
            rw [hts] at h
            simp only at h
            by_cases hty : meta.type ∈ ts.map MemoryType.value
            · rw [if_pos hty] at h
              cases hsc : scoreCandidates V f qlen rest with
              | error e =>
                rw [hsc] at h
                cases h
              | ok scored =>
                rw [hsc] at h
                simp only at h
                cases h
                intro r hr
                rcases List.mem_cons.mp hr with hr | hr
                · subst hr
                  exact ⟨(c.1, meta), assocFind_mem _ _ _ hfind, rfl,
                    Decidable.not_not.mp hown, Decidable.not_not.mp htier, rfl⟩
                · exact ih scored hsc r hr
            · rw [if_neg hty] at h
              exact ih rs h

theorem query_sound (V : SimpleVectorIndex) (q : MemoryQuery) (f : VFilters)
    (limit : Nat) (rs : List ScoredMemory)
    (h : SimpleVectorIndex.query V q f limit = .ok rs) :
    ∀ r ∈ rs, RowFromIndex V f r := by
  simp only [SimpleVectorIndex.query] at h
  split at h
  · cases h
    intro r hr
    simp at hr
  · split at h
    · cases h
    · rename_i scored hsc
      cases h
      intro r hr
      exact scoreCandidates_sound V f _ _ scored hsc r
        (mem_sortDescBy _ r scored (List.mem_of_mem_take hr))

theorem scoreCandidates_ok_of_types_some (V : SimpleVectorIndex) (f : VFilters)
    (qlen : Nat) (cands : List (String × Nat)) (ts : List MemoryType)
    (hts : f.types = some ts) :
    ∃ rs, scoreCandidates V f qlen cands = .ok rs := by
  induction cands with
  | nil => exact ⟨[], rfl⟩
  | cons c rest ih =>
    rcases ih with ⟨rs, hrs⟩
    unfold scoreCandidates
    cases hfind : assocFind c.1 V.metadata with
    | none => exact ⟨rs, hrs⟩
    | some meta =>
      simp only
      by_cases hown : meta.owner ≠ f.owner
      · rw [if_pos hown]
        exact ⟨rs, hrs⟩
      · rw [if_neg hown]
        by_cases htier : meta.tier ≠ f.tier
        · rw [if_pos htier]
          exact ⟨rs, hrs⟩
        · rw [if_neg htier]
          rw [hts]
          simp only
          by_cases hty : meta.type ∈ ts.map MemoryType.value
          · rw [if_pos hty, hrs]
            exact ⟨_, rfl⟩
          · rw [if_neg hty]
            exact ⟨rs, hrs⟩

theorem query_ok_of_types_some (V : SimpleVectorIndex) (q : MemoryQuery)
    (f : VFilters) (limit : Nat) (ts : List MemoryType) (hts : f.types = some ts) :
    ∃ rs, SimpleVectorIndex.query V q f limit = .ok rs := by
  unfold SimpleVectorIndex.query
  by_cases hq : (dedupGo [] (tokenize q.text)).isEmpty
  · rw [if_pos hq]
    exact ⟨[], rfl⟩
  · rw [if_neg hq]
    rcases scoreCandidates_ok_of_types_some V f _ (candidateScores V (dedupGo [] (tokenize q.text))) ts hts with ⟨rs, hrs⟩
    rw [hrs]
    exact ⟨_, rfl⟩

theorem hotSweep_ok (V : SimpleVectorIndex) (q : MemoryQuery)
    (ts : List MemoryType) (lim : Nat) :
    ∃ rs, hotSweep V q ts lim = .ok rs := by
  induction ts with
  | nil => exact ⟨[], rfl⟩
  | cons t rest ih =>
    rcases ih with ⟨rs, hrs⟩
    rcases query_ok_of_types_some V q
      { owner := q.owner, tier := StorageTier.hot.value, types := some [t] } lim [t] rfl with ⟨qs, hqs⟩
    unfold hotSweep
    rw [hqs, hrs]
    exact ⟨_, rfl⟩

theorem hotSweep_sound (V : SimpleVectorIndex) (q : MemoryQuery)
    (ts : List MemoryType) (lim : Nat) (rs : List ScoredMemory)
    (h : hotSweep V q ts lim = .ok rs) :
    ∀ r ∈ rs, ∃ p, p ∈ V.metadata ∧ r.item = (p.2).item ∧
      (p.2).owner = q.owner ∧ r.tier = .hot := by
  induction ts generalizing rs with
  | nil =>
    unfold hotSweep at h
    cases h
    intro r hr
    simp at hr
  | cons t rest ih =>
    unfold hotSweep at h
    split at h
    · cases h
    · rename_i qs hqs
      split at h
      · cases h
      · rename_i rest_rs hrest
        cases h
        intro r hr
        rcases List.mem_append.mp hr with hr | hr
        · rcases query_sound V q _ lim qs hqs r hr with ⟨p, hp, hitem, hown, htier, hrt⟩
          refine ⟨p, hp, hitem, hown, ?_⟩
          rw [hrt, htier]
          simp [StorageTier.value, tierFromValue]
        · exact ih rest_rs hrest r hr

theorem coldOne_inl (O : FileObjectStore) (r cr : ScoredMemory)
    (h : coldOne O r = .ok (some (.inl cr))) :
    cr.item.id = r.item.id ∧ cr.item.owner = r.item.owner ∧
    cr.score = r.score ∧ cr.tier = .cold ∧ cr.item.content.isSome = true := by
  unfold coldOne at h
  split at h
  · cases h
  · split at h
    · cases h
    · split at h
      · cases h
      · cases h
      · split at h
        · cases h
        · cases h
        · cases h
          exact ⟨rfl, rfl, rfl, rfl, rfl⟩
      · cases h
        exact ⟨rfl, rfl, rfl, rfl, rfl⟩

theorem coldHydrate_sound (O : FileObjectStore) (cands : List ScoredMemory)
    (rs : List ScoredMemory) (ws : List String)
    (h : coldHydrate O cands = .ok (rs, ws)) :
    ∀ r ∈ rs, ∃ c, c ∈ cands ∧ r.item.id = c.item.id ∧
      r.item.owner = c.item.owner ∧ r.score = c.score ∧ r.tier = .cold ∧
      r.item.content.isSome = true := by
  induction cands generalizing rs ws with
  | nil =>
    unfold coldHydrate at h
    cases h
    intro r hr
    simp at hr
  | cons c0 rest ih =>
    unfold coldHydrate at h
    split at h
    · cases h
    · rename_i act hact
      split at h
      · cases h
      · rename_i pr rs1 ws1 hrec
        split at h
        · cases h
          intro r hr
          rcases ih _ _ hrec r hr with ⟨c, hc, hrest⟩
          exact ⟨c, List.mem_cons_of_mem _ hc, hrest⟩
        · rename_i cr
          cases h
          intro r hr
          rcases List.mem_cons.mp hr with hr | hr
          · subst hr
            rcases coldOne_inl O c0 r hact with ⟨h1, h2, h3, h4, h5⟩
            exact ⟨c0, List.mem_cons_self _ _, h1, h2, h3, h4, h5⟩
          · rcases ih _ _ hrec r hr with ⟨c, hc, hrest⟩
            exact ⟨c, List.mem_cons_of_mem _ hc, hrest⟩
        · cases h
          intro r hr
          rcases ih _ _ hrec r hr with ⟨c, hc, hrest⟩
          exact ⟨c, List.mem_cons_of_mem _ hc, hrest⟩

theorem mem_ite_list {α : Type} (c : Prop) [Decidable c] (a b : List α) (x : α)
    (h : x ∈ (if c then a else b)) : x ∈ a ∨ x ∈ b := by
  split at h
  · exact Or.inl h
  · exact Or.inr h


/-- The hot-sweep result list (total: the hot sweep always succeeds,
its type filter being always set). -/
def hotResultsOf (V : SimpleVectorIndex) (plan : RetrievalPlan) (q : MemoryQuery) :
    List ScoredMemory :=
  match hotSweep V q (hotTypes q) (perTypeLimit plan q) with
  | .ok rs => rs
  | .error _ => []

/-- The archive-stage result list when the archive query succeeds. -/
def archiveResultsOf (V : SimpleVectorIndex) (plan : RetrievalPlan) (q : MemoryQuery) :
    List ScoredMemory :=
  match SimpleVectorIndex.query V q (archiveFilters q) plan.archive_top_k with
  | .ok rs => rs
  | .error _ => []

/-- Inversion of `retrieveCore`: a successful run took exactly one of
the three escalation paths. -/
theorem retrieveCore_inv (V : SimpleVectorIndex) (O : FileObjectStore)
    (plan : RetrievalPlan) (q : MemoryQuery) (now : Frac) (st : RetrievalState)
    (h : retrieveCore V O plan q now = .ok st) :
    ∃ hot, hotSweep V q (hotTypes q) (perTypeLimit plan q) = .ok hot ∧
      ((¬ (evaluate_confidence q hot now).total < plan.hot_confidence ∧
        st = { results := hot, confidence := evaluate_confidence q hot now,
               used_tiers := [.hot], warnings := [], trace := hotTrace }) ∨
       ((evaluate_confidence q hot now).total < plan.hot_confidence ∧ ∃ archive,
        SimpleVectorIndex.query V q (archiveFilters q) plan.archive_top_k = .ok archive ∧
        ¬ (conf2Of q now hot archive).total < plan.cold_fetch_confidence ∧
        st = { results := results2Of hot archive,
               confidence := conf2Of q now hot archive,
               used_tiers := used2Of archive, warnings := [],
               trace := archiveEscalatedTrace }) ∨
       ((evaluate_confidence q hot now).total < plan.hot_confidence ∧
        ∃ archive cold warns,
        SimpleVectorIndex.query V q (archiveFilters q) plan.archive_top_k = .ok archive ∧
        (conf2Of q now hot archive).total < plan.cold_fetch_confidence ∧
        coldHydrate O (coldCandsOf plan archive) = .ok (cold, warns) ∧
        st = { results := results2Of hot archive ++ cold,
               confidence := conf3Of plan q now hot archive cold,
               used_tiers := used3Of plan archive, warnings := warns,
               trace := coldEscalatedTrace })) := by
  unfold retrieveCore at h
  split at h
  · cases h
  · rename_i hot hhot
    refine ⟨hot, hhot, ?_⟩
    split at h
    · rename_i hlt
      split at h
      · cases h
      · rename_i archive harch
        split at h
        · rename_i hlt2
          split at h
          · cases h
          · rename_i pr cold warns hcold
            cases h
            exact Or.inr (Or.inr ⟨hlt, archive, cold, warns, harch, hlt2, hcold, rfl⟩)
        · rename_i hge2
          cases h
          exact Or.inr (Or.inl ⟨hlt, archive, harch, hge2, rfl⟩)
    · rename_i hge
      cases h
      exact Or.inl ⟨hge, rfl⟩

/-- Every accumulated result originates from a vector-index entry of
the querying owner (possibly as a cold copy sharing id and owner). -/
def FromOwnerIndex (V : SimpleVectorIndex) (q : MemoryQuery) (r : ScoredMemory) : Prop :=
  ∃ p, p ∈ V.metadata ∧ r.item.id = (p.2).item.id ∧
    r.item.owner = (p.2).item.owner ∧ (p.2).owner = q.owner

theorem mem_results2Of (hot archive : List ScoredMemory) (r : ScoredMemory)
    (h : r ∈ results2Of hot archive) : r ∈ hot ∨ r ∈ archive := by
  unfold results2Of at h
  rcases mem_ite_list _ _ _ _ h with h | h
  · exact Or.inl h
  · exact List.mem_append.mp h

theorem mem_coldCandsOf (plan : RetrievalPlan) (archive : List ScoredMemory)
    (c : ScoredMemory) (h : c ∈ coldCandsOf plan archive) : c ∈ archive := by
  unfold coldCandsOf at h
  exact List.mem_of_mem_filter (List.mem_of_mem_take h)

theorem retrieveCore_sound (V : SimpleVectorIndex) (O : FileObjectStore)
    (plan : RetrievalPlan) (q : MemoryQuery) (now : Frac) (st : RetrievalState)
    (h : retrieveCore V O plan q now = .ok st) :
    ∀ r ∈ st.results, FromOwnerIndex V q r := by
  have harch_sound : ∀ (archive : List ScoredMemory),
      SimpleVectorIndex.query V q (archiveFilters q) plan.archive_top_k = .ok archive →
      ∀ r ∈ archive, FromOwnerIndex V q r := by
    intro archive harch r hr
    rcases query_sound V q _ _ archive harch r hr with ⟨p, hp, hitem, hown, _⟩
    exact ⟨p, hp, by rw [hitem], by rw [hitem], hown⟩
  rcases retrieveCore_inv V O plan q now st h with ⟨hot, hhot, hcase⟩
  have hhot_sound : ∀ r ∈ hot, FromOwnerIndex V q r := by
    intro r hr
    rcases hotSweep_sound V q _ _ hot hhot r hr with ⟨p, hp, hitem, hown, _⟩
    exact ⟨p, hp, by rw [hitem], by rw [hitem], hown⟩
  rcases hcase with ⟨_, hst⟩ | ⟨_, archive, harch, _, hst⟩ |
    ⟨_, archive, cold, warns, harch, _, hcold, hst⟩
  · subst hst
    exact hhot_sound
  · subst hst
    intro r hr
    rcases mem_results2Of hot archive r hr with hr | hr
    · exact hhot_sound r hr
    · exact harch_sound archive harch r hr
  · subst hst
    intro r hr
    rcases List.mem_append.mp hr with hr | hr
    · rcases mem_results2Of hot archive r hr with hr | hr
      · exact hhot_sound r hr
      · exact harch_sound archive harch r hr
    · rcases coldHydrate_sound O _ cold warns hcold r hr with
        ⟨c, hc, hid, hown, _, _, _⟩
      rcases harch_sound archive harch c (mem_coldCandsOf plan archive c hc) with
        ⟨p, hp, hid2, hown2, hpown⟩
      exact ⟨p, hp, by rw [hid, hid2], by rw [hown, hown2], hpown⟩

theorem hydrateAll_mem (M : MetadataStore) (rs : List ScoredMemory) :
    ∀ r' ∈ hydrateAll M rs, ∃ r, r ∈ rs ∧ (r' = r ∨
      ∃ full, metaGet M r.item.id = some full ∧ r' = { r with item := full }) := by
  induction rs with
  | nil =>
    intro r' hr'
    simp [hydrateAll] at hr'
  | cons r0 rest ih =>
    intro r' hr'
    unfold hydrateAll at hr'
    split at hr'
    · rcases List.mem_cons.mp hr' with hr' | hr'
      · exact ⟨r0, List.mem_cons_self _ _, Or.inl hr'⟩
      · rcases ih r' hr' with ⟨r, hr, hcase⟩
        exact ⟨r, List.mem_cons_of_mem _ hr, hcase⟩
    · split at hr'
      · rcases List.mem_cons.mp hr' with hr' | hr'
        · exact ⟨r0, List.mem_cons_self _ _, Or.inl hr'⟩
        · rcases ih r' hr' with ⟨r, hr, hcase⟩
          exact ⟨r, List.mem_cons_of_mem _ hr, hcase⟩
      · rename_i full hfull
        rcases List.mem_cons.mp hr' with hr' | hr'
        · exact ⟨r0, List.mem_cons_self _ _, Or.inr ⟨full, hfull, hr'⟩⟩
        · rcases ih r' hr' with ⟨r, hr, hcase⟩
          exact ⟨r, List.mem_cons_of_mem _ hr, hcase⟩

theorem mem_values_assocSet {α : Type} (key : String) (v x : α)
    (l : List (String × α)) (h : x ∈ (assocSet key v l).map (fun kv => kv.2)) :
    x = v ∨ x ∈ l.map (fun kv => kv.2) := by
  induction l with
  | nil => simpa [assocSet] using h
  | cons kv rest ih =>
    unfold assocSet at h
    split at h
    · rcases List.mem_cons.mp h with h | h
      · exact Or.inl h
      · exact Or.inr (List.mem_cons_of_mem _ h)
    · rcases List.mem_cons.mp h with h | h
      · exact Or.inr (List.mem_cons.mpr (Or.inl h))
      · rcases ih h with h | h
        · exact Or.inl h
        · exact Or.inr (List.mem_cons_of_mem _ h)

theorem mem_values_dedupeGo (l : List ScoredMemory) :
    ∀ (best : List (String × ScoredMemory)) (r : ScoredMemory),
      r ∈ (dedupeGo best l).map (fun kv => kv.2) →
      r ∈ best.map (fun kv => kv.2) ∨ r ∈ l := by
  induction l with
  | nil =>
    intro best r h
    exact Or.inl (by simpa [dedupeGo] using h)
  | cons r0 rest ih =>
    intro best r h
    unfold dedupeGo at h
    split at h
    · rcases ih _ r h with h | h
      · simp only [List.map_append] at h
        rcases List.mem_append.mp h with h | h
        · exact Or.inl h
        · simp at h
          exact Or.inr (List.mem_cons.mpr (Or.inl h))
      · exact Or.inr (List.mem_cons_of_mem _ h)
    · split at h
      · rcases ih _ r h with h | h
        · rcases mem_values_assocSet _ _ _ _ h with h | h
          · exact Or.inr (List.mem_cons.mpr (Or.inl h))
          · exact Or.inl h
        · exact Or.inr (List.mem_cons_of_mem _ h)
      · rcases ih _ r h with h | h
        · exact Or.inl h
        · exact Or.inr (List.mem_cons_of_mem _ h)

theorem mem_dedupe (l : List ScoredMemory) (r : ScoredMemory)
    (h : r ∈ dedupe l) : r ∈ l := by
  rcases mem_values_dedupeGo l [] r h with h | h
  · simp at h
  · exact h

theorem mem_rerank (plan : RetrievalPlan) (l : List ScoredMemory) (r : ScoredMemory)
    (h : r ∈ rerank plan l) : r ∈ l := by
  exact mem_sortDescBy _ r l (List.mem_of_mem_take h)

theorem retrieve_ok_inv (M : MetadataStore) (V : SimpleVectorIndex)
    (O : FileObjectStore) (plan : RetrievalPlan) (q : MemoryQuery) (now : Frac)
    (b : MemoryBundle) (h : retrieve M V O plan q now = .ok b) :
    ∃ st, retrieveCore V O plan q now = .ok st ∧ b = finishBundle M plan q st := by
  unfold retrieve at h
  split at h
  · cases h
  · rename_i st hst
    cases h
    exact ⟨st, hst, rfl⟩

theorem bundle_results_owner (M : MetadataStore) (V : SimpleVectorIndex)
    (O : FileObjectStore) (plan : RetrievalPlan) (q : MemoryQuery) (now : Frac)
    (b : MemoryBundle)
    (hvec : ∀ p ∈ V.metadata, (p.2).owner = (p.2).item.owner)
    (hmeta : ∀ p ∈ V.metadata, ∀ full, metaGet M (p.2).item.id = some full →
      full.owner = (p.2).item.owner)
    (hb : retrieve M V O plan q now = .ok b) :
    ∀ r ∈ b.results, r.item.owner = q.owner := by
  rcases retrieve_ok_inv M V O plan q now b hb with ⟨st, hst, rfl⟩
  have hsound := retrieveCore_sound V O plan q now st hst
  intro r hr
  have hr2 : r ∈ hydrateAll M st.results :=
    mem_dedupe _ r (mem_rerank plan _ r hr)
  rcases hydrateAll_mem M st.results r hr2 with ⟨r0, hr0, hcase⟩
  rcases hsound r0 hr0 with ⟨p, hp, hid, hown, hpown⟩
  rcases hcase with rfl | ⟨full, hfull, rfl⟩
  · rw [hown, ← hvec p hp, hpown]
  · show full.owner = q.owner
    rw [hmeta p hp full (by rw [← hid]; exact hfull), ← hvec p hp, hpown]

/-- C1, owner isolation: with the vector index and metadata store
owner-consistent (each indexed entry's metadata owner matches its
embedded item's owner; a metadata fetch for an indexed id yields an
item of the same owner), every result and block of a successful
`retrieve` belongs to the querying owner — so for any other owner `A`,
the bundle contains nothing owned by `A`: every hot, archive and cold
lookup is filtered to the querying owner. -/
theorem owner_isolation (M : MetadataStore) (V : SimpleVectorIndex)
    (O : FileObjectStore) (plan : RetrievalPlan) (q : MemoryQuery) (now : Frac)
    (A : String) (b : MemoryBundle)
    (hA : A ≠ q.owner)
    (hvec : ∀ p ∈ V.metadata, (p.2).owner = (p.2).item.owner)
    (hmeta : ∀ p ∈ V.metadata, ∀ full, metaGet M (p.2).item.id = some full →
      full.owner = (p.2).item.owner)
    (hb : retrieve M V O plan q now = .ok b) :
    (∀ r ∈ b.results, r.item.owner = q.owner ∧ r.item.owner ≠ A) ∧
    (∀ blk ∈ b.blocks, blk.metadata_owner = q.owner ∧ blk.metadata_owner ≠ A) := by
  have hmain := bundle_results_owner M V O plan q now b hvec hmeta hb
  constructor
  · intro r hr
    exact ⟨hmain r hr, by rw [hmain r hr]; exact fun hc => hA hc.symm⟩
  · intro blk hblk
    rcases retrieve_ok_inv M V O plan q now b hb with ⟨st, hst, hbeq⟩
    have hblocks : b.blocks = to_blocks b.results := by
      rw [hbeq]
      rfl
    rw [hblocks] at hblk
    unfold to_blocks at hblk
    rcases List.mem_map.mp hblk with ⟨r, hr, rfl⟩
    exact ⟨hmain r hr, by rw [hmain r hr]; exact fun hc => hA hc.symm⟩

theorem mem_results2Of_left (hot archive : List ScoredMemory) (r : ScoredMemory)
    (h : r ∈ hot) : r ∈ results2Of hot archive := by
  unfold results2Of
  split
  · exact h
  · exact List.mem_append_left _ h

theorem archive_mem_used2Of (archive : List ScoredMemory) :
    (StorageTier.archive_index ∈ used2Of archive) ↔ archive ≠ [] := by
  cases archive with
  | nil => simp [used2Of, List.isEmpty]
  | cons a as => simp [used2Of, List.isEmpty]

theorem archive_mem_used3Of (plan : RetrievalPlan) (archive : List ScoredMemory) :
    (StorageTier.archive_index ∈ used3Of plan archive) ↔ archive ≠ [] := by
  unfold used3Of
  split
  · exact archive_mem_used2Of archive
  · rw [List.mem_append]
    simp only [List.mem_singleton]
    constructor
    · intro h
      rcases h with h | h
      · exact (archive_mem_used2Of archive).mp h
      · cases h
    · intro h
      exact Or.inl ((archive_mem_used2Of archive).mpr h)

/-- C2, escalation gate: when the confidence evaluated on the hot
sweep alone reaches `hot_confidence`, retrieval succeeds with
`used_tiers = [hot]` and no escalation; otherwise the archive query is
issued — hot results are all retained in the accumulated results — and
`archive_index` appears in `used_tiers` exactly when that query
returned at least one row. -/
theorem escalation_gate (M : MetadataStore) (V : SimpleVectorIndex)
    (O : FileObjectStore) (plan : RetrievalPlan) (q : MemoryQuery) (now : Frac) :
    (plan.hot_confidence ≤ (evaluate_confidence q (hotResultsOf V plan q) now).total →
      ∃ b, retrieve M V O plan q now = .ok b ∧ b.used_tiers = [.hot] ∧
        b.trace.escalations = []) ∧
    ((evaluate_confidence q (hotResultsOf V plan q) now).total < plan.hot_confidence →
      ∀ st, retrieveCore V O plan q now = .ok st →
        (∀ r ∈ hotResultsOf V plan q, r ∈ st.results) ∧
        ((StorageTier.archive_index ∈ st.used_tiers) ↔ archiveResultsOf V plan q ≠ []) ∧
        (∀ b, retrieve M V O plan q now = .ok b →
          b.used_tiers = st.used_tiers ∧ b.trace.escalations = st.trace.escalations)) := by
  obtain ⟨hot, hhot⟩ := hotSweep_ok V q (hotTypes q) (perTypeLimit plan q)
  have hres : hotResultsOf V plan q = hot := by
    unfold hotResultsOf
    rw [hhot]
  constructor
  · intro hge
    rw [hres] at hge
    have hcore : retrieveCore V O plan q now =
        .ok { results := hot, confidence := evaluate_confidence q hot now,
              used_tiers := [.hot], warnings := [], trace := hotTrace } := by
      unfold retrieveCore
      rw [hhot]
      dsimp only
      rw [if_neg (Frac.not_lt_of_le _ _ hge)]
    refine ⟨finishBundle M plan q
      { results := hot, confidence := evaluate_confidence q hot now,
        used_tiers := [.hot], warnings := [], trace := hotTrace }, ?_, rfl, rfl⟩
    unfold retrieve
    rw [hcore]
  · intro hlt st hst
    rw [hres] at hlt
    have hused : ∀ b, retrieve M V O plan q now = .ok b →
        b.used_tiers = st.used_tiers ∧ b.trace.escalations = st.trace.escalations := by
      intro b hb
      rcases retrieve_ok_inv M V O plan q now b hb with ⟨st2, hst2, rfl⟩
      rw [hst] at hst2
      cases hst2
      exact ⟨rfl, rfl⟩
    rcases retrieveCore_inv V O plan q now st hst with ⟨hot2, hhot2, hcase⟩
    rw [hhot] at hhot2
    cases hhot2
    rcases hcase with ⟨hge, _⟩ | ⟨_, archive, harch, _, hsteq⟩ |
      ⟨_, archive, cold, warns, harch, _, hcold, hsteq⟩
    · exact absurd hlt hge
    · have harcheq : archiveResultsOf V plan q = archive := by
        unfold archiveResultsOf
        rw [harch]
      subst hsteq
      refine ⟨?_, ?_, hused⟩
      · intro r hr
        rw [hres] at hr
        exact mem_results2Of_left hot archive r hr
      · rw [harcheq]
        exact archive_mem_used2Of archive
    · have harcheq : archiveResultsOf V plan q = archive := by
        unfold archiveResultsOf
        rw [harch]
      subst hsteq
      refine ⟨?_, ?_, hused⟩
      · intro r hr
        rw [hres] at hr
        exact List.mem_append_left _ (mem_results2Of_left hot archive r hr)
      · rw [harcheq]
        exact archive_mem_used3Of plan archive

def fallbackState : RetrievalState :=
  { results := [], confidence := evaluate_confidence { text := "", owner := "" } [] ⟨0, 1⟩,
    used_tiers := [], warnings := [], trace := {} }

def fallbackBundle : MemoryBundle :=
  { query := "", results := [], blocks := [],
    confidence := evaluate_confidence { text := "", owner := "" } [] ⟨0, 1⟩,
    used_tiers := [], trace := {} }

/-- The S1-style hot-hit scenario: one well-scored fresh hot item. -/
def w1Item : MemoryItem :=
  { id := "h1", type := .episodic, owner := "u", summary := "alpha",
    created_at := ⟨0, 1⟩, updated_at := ⟨0, 1⟩, tier := .hot,
    confidence := ⟨7, 10⟩, authority := ⟨1, 1⟩, stability := ⟨1, 1⟩ }

def w1V : SimpleVectorIndex := index_hot {} w1Item

def w1Meta : VMeta :=
  { owner := "u", tier := StorageTier.hot.value,
    type := MemoryType.episodic.value, item := w1Item }

def w1q : MemoryQuery := { text := "alpha", owner := "u" }

def w1O : FileObjectStore := { root := "/cold" }

def w1Bundle : MemoryBundle :=
  match retrieve [("h1", w1Item)] w1V w1O {} w1q ⟨0, 1⟩ with
  | .ok b => b
  | .error _ => fallbackBundle

/-- C1 witness: at the concrete hot-hit state the hypotheses hold and
the bundle contains only the owner's results. -/
theorem owner_isolation_witness :
    "attacker" ≠ w1q.owner ∧
    retrieve [("h1", w1Item)] w1V w1O {} w1q ⟨0, 1⟩ = .ok w1Bundle ∧
    (∀ r ∈ w1Bundle.results, r.item.owner = w1q.owner ∧ r.item.owner ≠ "attacker") ∧
    (∀ blk ∈ w1Bundle.blocks, blk.metadata_owner = w1q.owner ∧
      blk.metadata_owner ≠ "attacker") := by
  have h := owner_isolation [("h1", w1Item)] w1V w1O {} w1q ⟨0, 1⟩ "attacker" w1Bundle
    (by decide)
    (by decide)
    (by
      intro p hp full hfull
      have hp2 : p = ("h1", w1Meta) := List.mem_singleton.mp hp
      subst hp2
      have hfw : w1Item = full := by
        simpa [metaGet, assocFind, w1Meta, w1Item] using hfull
      rw [← hfw]
      rfl)
    rfl
  exact ⟨by decide, rfl, h.1, h.2⟩

/-- C2 witness, accepting branch: the hot-hit confidence clears the
threshold and the bundle uses only the hot tier. -/
theorem escalation_gate_witness_hot :
    ({} : RetrievalPlan).hot_confidence ≤
      (evaluate_confidence w1q (hotResultsOf w1V {} w1q) ⟨0, 1⟩).total ∧
    (∃ b, retrieve [("h1", w1Item)] w1V w1O {} w1q ⟨0, 1⟩ = .ok b ∧
      b.used_tiers = [.hot] ∧ b.trace.escalations = []) := by
  refine ⟨by decide, ?_⟩
  exact (escalation_gate [("h1", w1Item)] w1V w1O {} w1q ⟨0, 1⟩).1 (by decide)

/-- The S2-style archived scenario: one archived item reachable only
through the archive index, with its daily-notes file in place. -/
def w2Item : MemoryItem :=
  { id := "i1", type := .episodic, owner := "u", summary := "alpha",
    created_at := ⟨0, 1⟩, updated_at := ⟨0, 1⟩, tier := .cold,
    pointer_object_key := some "/cold/u/0/daily_notes.json",
    pointer_archive_key := some "u/0/daily_notes",
    content := none, tags := ["t1"] }

def w2V : SimpleVectorIndex := index_archive {} w2Item

def w2O : FileObjectStore :=
  { root := "/cold",
    files := [("/cold/u/0/daily_notes.json", .val (.arr [archivePayload w2Item]))] }

def w2M : MetadataStore := [("i1", w2Item)]

def w2q : MemoryQuery := { text := "alpha beta gamma", owner := "u", types := some [.episodic] }

def w2State : RetrievalState :=
  match retrieveCore w2V w2O {} w2q ⟨0, 1⟩ with
  | .ok st => st
  | .error _ => fallbackState

/-- C2 witness, escalating branch: the hot confidence falls short, the
archive query returns a row, and `archive_index` is in `used_tiers`. -/
theorem escalation_gate_witness_escalate :
    (evaluate_confidence w2q (hotResultsOf w2V {} w2q) ⟨0, 1⟩).total <
      ({} : RetrievalPlan).hot_confidence ∧
    ((∀ r ∈ hotResultsOf w2V {} w2q, r ∈ w2State.results) ∧
      ((StorageTier.archive_index ∈ w2State.used_tiers) ↔
        archiveResultsOf w2V {} w2q ≠ []) ∧
      (∀ b, retrieve w2M w2V w2O {} w2q ⟨0, 1⟩ = .ok b →
        b.used_tiers = w2State.used_tiers ∧
        b.trace.escalations = w2State.trace.escalations)) := by
  refine ⟨by decide, ?_⟩
  exact (escalation_gate w2M w2V w2O {} w2q ⟨0, 1⟩).2 (by decide) w2State rfl

theorem Frac.le_refl (a : Frac) : a ≤ a := Int.le_refl _

theorem Frac.le_trans (a b c : Frac) (ha : 0 < a.den) (hb : 0 < b.den)
    (hc : 0 < c.den) (hab : a ≤ b) (hbc : b ≤ c) : a ≤ c := by
  have hab2 : a.num * b.den ≤ b.num * a.den := hab
  have hbc2 : b.num * c.den ≤ c.num * b.den := hbc
  have h1 : a.num * b.den * c.den ≤ b.num * a.den * c.den :=
    mul_le_mul_of_nonneg_right hab2 (Int.le_of_lt hc)
  have h2 : b.num * c.den * a.den ≤ c.num * b.den * a.den :=
    mul_le_mul_of_nonneg_right hbc2 (Int.le_of_lt ha)
  have h3 : a.num * c.den * b.den ≤ c.num * a.den * b.den := by nlinarith
  show a.num * c.den ≤ c.num * a.den
  exact le_of_mul_le_mul_right h3 hb

theorem Frac.div_posden (a b : Frac) (ha : 0 < a.den) (hb : 0 < b.num) :
    0 < (Frac.div a b).den := by
  unfold Frac.div
  rw [if_neg (by omega), if_neg (by omega)]
  show 0 < a.den * b.num
  positivity

theorem scoreCandidates_posden (V : SimpleVectorIndex) (f : VFilters) (qlen : Nat)
    (cands : List (String × Nat)) (rs : List ScoredMemory)
    (h : scoreCandidates V f qlen cands = .ok rs) :
    ∀ r ∈ rs, 0 < r.score.den := by
  induction cands generalizing rs with
  | nil =>
    unfold scoreCandidates at h
    cases h
    intro r hr
    simp at hr
  | cons c rest ih =>
    unfold scoreCandidates at h
    cases hfind : assocFind c.1 V.metadata with
    | none =>
      rw [hfind] at h
      exact ih rs h
    | some meta =>
      rw [hfind] at h
      simp only at h
      by_cases hown : meta.owner ≠ f.owner
      · rw [if_pos hown] at h
        exact ih rs h
      · rw [if_neg hown] at h
        by_cases htier : meta.tier ≠ f.tier
        · rw [if_pos htier] at h
          exact ih rs h
        · rw [if_neg htier] at h
          cases hts : f.types with
          | none =>
            rw [hts] at h
            cases h
          | some ts =>
            rw [hts] at h
            simp only at h
            by_cases hty : meta.type ∈ ts.map MemoryType.value
            · rw [if_pos hty] at h
              cases hsc : scoreCandidates V f qlen rest with
              | error e =>
                rw [hsc] at h
                cases h
              | ok scored =>
                rw [hsc] at h
                simp only at h
                cases h
                intro r hr
                rcases List.mem_cons.mp hr with hr | hr
                · subst hr
                  show 0 < (Frac.div ⟨(c.2 : Int), 1⟩ ⟨max 1 (qlen : Int), 1⟩).den
                  refine Frac.div_posden _ _ Int.one_pos ?_
                  show (0 : Int) < max 1 (qlen : Int)
                  exact lt_of_lt_of_le Int.one_pos (le_max_left _ _)
                · exact ih scored hsc r hr
            · rw [if_neg hty] at h
              exact ih rs h

theorem query_posden (V : SimpleVectorIndex) (q : MemoryQuery) (f : VFilters)
    (limit : Nat) (rs : List ScoredMemory)
    (h : SimpleVectorIndex.query V q f limit = .ok rs) :
    ∀ r ∈ rs, 0 < r.score.den := by
  simp only [SimpleVectorIndex.query] at h
  split at h
  · cases h
    intro r hr
    simp at hr
  · split at h
    · cases h
    · rename_i scored hsc
      cases h
      intro r hr
      exact scoreCandidates_posden V f _ _ scored hsc r
        (mem_sortDescBy _ r scored (List.mem_of_mem_take hr))

theorem hotSweep_posden (V : SimpleVectorIndex) (q : MemoryQuery)
    (ts : List MemoryType) (lim : Nat) (rs : List ScoredMemory)
    (h : hotSweep V q ts lim = .ok rs) :
    ∀ r ∈ rs, 0 < r.score.den := by
  induction ts generalizing rs with
  | nil =>
    unfold hotSweep at h
    cases h
    intro r hr
    simp at hr
  | cons t rest ih =>
    unfold hotSweep at h
    split at h
    · cases h
    · rename_i qs hqs
      split at h
      · cases h
      · rename_i rest_rs hrest
        cases h
        intro r hr
        rcases List.mem_append.mp hr with hr | hr
        · exact query_posden V q _ lim qs hqs r hr
        · exact ih rest_rs hrest r hr

theorem retrieveCore_posden (V : SimpleVectorIndex) (O : FileObjectStore)
    (plan : RetrievalPlan) (q : MemoryQuery) (now : Frac) (st : RetrievalState)
    (h : retrieveCore V O plan q now = .ok st) :
    ∀ r ∈ st.results, 0 < r.score.den := by
  rcases retrieveCore_inv V O plan q now st h with ⟨hot, hhot, hcase⟩
  have hhotp := hotSweep_posden V q _ _ hot hhot
  rcases hcase with ⟨_, hst⟩ | ⟨_, archive, harch, _, hst⟩ |
    ⟨_, archive, cold, warns, harch, _, hcold, hst⟩
  · subst hst
    exact hhotp
  · subst hst
    intro r hr
    rcases mem_results2Of hot archive r hr with hr | hr
    · exact hhotp r hr
    · exact query_posden V q _ _ archive harch r hr
  · subst hst
    intro r hr
    rcases List.mem_append.mp hr with hr | hr
    · rcases mem_results2Of hot archive r hr with hr | hr
      · exact hhotp r hr
      · exact query_posden V q _ _ archive harch r hr
    · rcases coldHydrate_sound O _ cold warns hcold r hr with
        ⟨c, hc, _, _, hsc, _, _⟩
      rw [hsc]
      exact query_posden V q _ _ archive harch c (mem_coldCandsOf plan archive c hc)

theorem assocFind_none_not_mem {α : Type} (key : String) (l : List (String × α))
    (h : assocFind key l = none) : key ∉ l.map (fun kv => kv.1) := by
  induction l with
  | nil => simp
  | cons kv rest ih =>
    unfold assocFind at h
    split at h
    · cases h
    · rename_i hne
      intro hmem
      rcases List.mem_cons.mp hmem with hmem | hmem
      · exact hne hmem.symm
      · exact ih h hmem

theorem keys_assocSet_found {α : Type} (key : String) (x : α)
    (l : List (String × α)) (v : α) (h : assocFind key l = some v) :
    (assocSet key x l).map (fun kv => kv.1) = l.map (fun kv => kv.1) := by
  induction l with
  | nil => simp [assocFind] at h
  | cons kv rest ih =>
    unfold assocFind at h
    unfold assocSet
    split at h
    · rename_i heq
      rw [if_pos heq]
      simp
    · rename_i hne
      rw [if_neg hne]
      show (kv :: assocSet key x rest).map _ = _
      simp only [List.map_cons]
      rw [ih h]

theorem assocFind_of_mem_nodup {α : Type} (key : String) (v : α)
    (l : List (String × α)) (hnd : (l.map (fun kv => kv.1)).Nodup)
    (hmem : (key, v) ∈ l) : assocFind key l = some v := by
  induction l with
  | nil => simp at hmem
  | cons kv rest ih =>
    simp only [List.map_cons, List.nodup_cons] at hnd
    unfold assocFind
    rcases List.mem_cons.mp hmem with hmem | hmem
    · rw [if_pos (by rw [← hmem])]
      rw [← hmem]
    · by_cases heq : kv.1 = key
      · exfalso
        apply hnd.1
        rw [heq]
        exact List.mem_map_of_mem _ hmem
      · rw [if_neg heq]
        exact ih hnd.2 hmem

theorem mem_assocSet_found {α : Type} (key : String) (x : α)
    (l : List (String × α)) (v : α) (h : assocFind key l = some v) :
    (key, x) ∈ assocSet key x l := by
  induction l with
  | nil => simp [assocFind] at h
  | cons kv rest ih =>
    unfold assocFind at h
    unfold assocSet
    split at h
    · rename_i heq
      rw [if_pos heq]
      exact List.mem_cons.mpr (Or.inl (by rw [heq]))
    · rename_i hne
      rw [if_neg hne]
      exact List.mem_cons_of_mem _ (ih h)

theorem mem_assocSet_of_ne {α : Type} (key key' : String) (x v : α)
    (l : List (String × α)) (hmem : (key', v) ∈ l) (hne : key' ≠ key) :
    (key', v) ∈ assocSet key x l := by
  induction l with
  | nil => simp at hmem
  | cons kv rest ih =>
    unfold assocSet
    by_cases heq : kv.1 = key
    · rw [if_pos heq]
      rcases List.mem_cons.mp hmem with hm | hm
      · exfalso
        apply hne
        rw [← hm] at heq
        exact heq
      · exact List.mem_cons_of_mem _ hm
    · rw [if_neg heq]
      rcases List.mem_cons.mp hmem with hm | hm
      · exact List.mem_cons.mpr (Or.inl hm)
      · exact List.mem_cons_of_mem _ (ih hm)

theorem nodup_keys_append_fresh {α : Type} (best : List (String × α)) (k : String)
    (v : α) (h : (best.map (fun kv => kv.1)).Nodup)
    (hfind : assocFind k best = none) :
    ((best ++ [(k, v)]).map (fun kv => kv.1)).Nodup := by
  rw [List.map_append]
  refine List.Nodup.append h (by simp) ?_
  intro k2 hk2 hk3
  simp at hk3
  subst hk3
  exact assocFind_none_not_mem _ _ hfind hk2

theorem posden_assocSet (key : String) (x : ScoredMemory)
    (best : List (String × ScoredMemory))
    (hbp : ∀ kv ∈ best, 0 < kv.2.score.den) (hx : 0 < x.score.den) :
    ∀ kv ∈ assocSet key x best, 0 < kv.2.score.den := by
  intro kv hkv
  rcases mem_values_assocSet key x kv.2 best
    (List.mem_map_of_mem (fun kv => kv.2) hkv) with h | h
  · rw [h]
    exact hx
  · rcases List.mem_map.mp h with ⟨kv2, hkv2, heq⟩
    rw [← heq]
    exact hbp kv2 hkv2

theorem posden_append_one (best : List (String × ScoredMemory)) (k : String)
    (x : ScoredMemory) (hbp : ∀ kv ∈ best, 0 < kv.2.score.den)
    (hx : 0 < x.score.den) :
    ∀ kv ∈ best ++ [(k, x)], 0 < kv.2.score.den := by
  intro kv hkv
  rcases List.mem_append.mp hkv with hkv | hkv
  · exact hbp kv hkv
  · simp at hkv
    rw [hkv]
    exact hx

theorem dedupeGo_nodup (l : List ScoredMemory) :
    ∀ best : List (String × ScoredMemory),
      (best.map (fun kv => kv.1)).Nodup →
      ((dedupeGo best l).map (fun kv => kv.1)).Nodup := by
  induction l with
  | nil =>
    intro best h
    simpa [dedupeGo] using h
  | cons r rest ih =>
    intro best h
    unfold dedupeGo
    cases hfind : assocFind r.item.id best with
    | none =>
      simp only [hfind]
      exact ih _ (nodup_keys_append_fresh best _ r h hfind)
    | some prev =>
      simp only [hfind]
      by_cases hlt : prev.score < r.score
      · rw [if_pos hlt]
        refine ih _ ?_
        rw [keys_assocSet_found _ _ _ _ hfind]
        exact h
      · rw [if_neg hlt]
        exact ih _ h

theorem dedupeGo_grows (l : List ScoredMemory) :
    ∀ (best : List (String × ScoredMemory)) (k : String) (v : ScoredMemory),
      (best.map (fun kv => kv.1)).Nodup →
      (∀ kv ∈ best, 0 < kv.2.score.den) →
      (∀ r ∈ l, 0 < r.score.den) →
      (k, v) ∈ best →
      ∃ v', (k, v') ∈ dedupeGo best l ∧ v.score ≤ v'.score ∧ 0 < v'.score.den := by
  induction l with
  | nil =>
    intro best k v _ hbp _ hmem
    exact ⟨v, by simpa [dedupeGo] using hmem, Frac.le_refl _, hbp (k, v) hmem⟩
  | cons r rest ih =>
    intro best k v hnd hbp hlp hmem
    unfold dedupeGo
    cases hfind : assocFind r.item.id best with
    | none =>
      simp only [hfind]
      exact ih (best ++ [(r.item.id, r)]) k v
        (nodup_keys_append_fresh best _ r hnd hfind)
        (posden_append_one best _ r hbp (hlp r (List.mem_cons_self _ _)))
        (fun r2 hr2 => hlp r2 (List.mem_cons_of_mem _ hr2))
        (List.mem_append_left _ hmem)
    | some prev =>
      simp only [hfind]
      by_cases hlt : prev.score < r.score
      · rw [if_pos hlt]
        by_cases hkeq : k = r.item.id
        · subst hkeq
          have hveq : v = prev := by
            have h2 := assocFind_of_mem_nodup r.item.id v best hnd hmem
            rw [hfind] at h2
            cases h2
            rfl
          subst hveq
          rcases ih (assocSet r.item.id r best) r.item.id r
            (by rw [keys_assocSet_found _ _ _ _ hfind]; exact hnd)
            (posden_assocSet r.item.id r best hbp (hlp r (List.mem_cons_self _ _)))
            (fun r2 hr2 => hlp r2 (List.mem_cons_of_mem _ hr2))
            (mem_assocSet_found _ _ _ _ hfind) with ⟨v', hv', hle, hpd⟩
          refine ⟨v', hv', ?_, hpd⟩
          exact Frac.le_trans _ _ _ (hbp (r.item.id, v) hmem)
            (hlp r (List.mem_cons_self _ _)) hpd (Frac.le_of_lt _ _ hlt) hle
        · rcases ih (assocSet r.item.id r best) k v
            (by rw [keys_assocSet_found _ _ _ _ hfind]; exact hnd)
            (posden_assocSet _ r best hbp (hlp r (List.mem_cons_self _ _)))
            (fun r2 hr2 => hlp r2 (List.mem_cons_of_mem _ hr2))
            (mem_assocSet_of_ne _ _ _ _ _ hmem hkeq) with ⟨v', hv', hle, hpd⟩
          exact ⟨v', hv', hle, hpd⟩
      · rw [if_neg hlt]
        exact ih best k v hnd hbp
          (fun r2 hr2 => hlp r2 (List.mem_cons_of_mem _ hr2)) hmem

theorem dedupeGo_cons (best : List (String × ScoredMemory)) (r : ScoredMemory)
    (rest : List ScoredMemory) : dedupeGo best (r :: rest) =
    (match assocFind r.item.id best with
     | none => dedupeGo (best ++ [(r.item.id, r)]) rest
     | some prev =>
       if prev.score < r.score then dedupeGo (assocSet r.item.id r best) rest
       else dedupeGo best rest) := rfl

theorem dedupeGo_covers (l : List ScoredMemory) :
    ∀ best : List (String × ScoredMemory),
      (best.map (fun kv => kv.1)).Nodup →
      (∀ kv ∈ best, 0 < kv.2.score.den) →
      (∀ r ∈ l, 0 < r.score.den) →
      ∀ c ∈ l, ∃ kv, kv ∈ dedupeGo best l ∧ kv.1 = c.item.id ∧
        c.score ≤ kv.2.score := by
  induction l with
  | nil =>
    intro best _ _ _ c hc
    simp at hc
  | cons r rest ih =>
    intro best hnd hbp hlp c hc
    rw [dedupeGo_cons]
    cases hfind : assocFind r.item.id best with
    | none =>
      simp only [hfind]
      have hnd2 := nodup_keys_append_fresh best _ r hnd hfind
      have hbp2 := posden_append_one best r.item.id r hbp (hlp r (List.mem_cons_self _ _))
      have hlp2 : ∀ r2 ∈ rest, 0 < r2.score.den :=
        fun r2 hr2 => hlp r2 (List.mem_cons_of_mem _ hr2)
      rcases List.mem_cons.mp hc with hc | hc
      · rcases dedupeGo_grows rest (best ++ [(r.item.id, r)]) r.item.id r hnd2 hbp2 hlp2
          (List.mem_append_right _ (List.mem_cons_self _ _)) with ⟨v', hv', hle, _⟩
        refine ⟨(r.item.id, v'), hv', ?_, ?_⟩
        · rw [hc]
        · rw [hc]
          exact hle
      · exact ih _ hnd2 hbp2 hlp2 c hc
    | some prev =>
      simp only [hfind]
      by_cases hlt : prev.score < r.score
      · rw [if_pos hlt]
        have hnd2 : ((assocSet r.item.id r best).map (fun kv => kv.1)).Nodup := by
          rw [keys_assocSet_found _ _ _ _ hfind]
          exact hnd
        have hbp2 := posden_assocSet r.item.id r best hbp (hlp r (List.mem_cons_self _ _))
        have hlp2 : ∀ r2 ∈ rest, 0 < r2.score.den :=
          fun r2 hr2 => hlp r2 (List.mem_cons_of_mem _ hr2)
        rcases List.mem_cons.mp hc with hc | hc
        · rcases dedupeGo_grows rest (assocSet r.item.id r best) r.item.id r hnd2 hbp2 hlp2
            (mem_assocSet_found _ _ _ _ hfind) with ⟨v', hv', hle, _⟩
          refine ⟨(r.item.id, v'), hv', ?_, ?_⟩
          · rw [hc]
          · rw [hc]
            exact hle
        · exact ih _ hnd2 hbp2 hlp2 c hc
      · rw [if_neg hlt]
        have hlp2 : ∀ r2 ∈ rest, 0 < r2.score.den :=
          fun r2 hr2 => hlp r2 (List.mem_cons_of_mem _ hr2)
        rcases List.mem_cons.mp hc with hc | hc
        · rcases dedupeGo_grows rest best r.item.id prev hnd hbp hlp2
            (assocFind_mem _ _ _ hfind) with ⟨v', hv', hle2, hpd⟩
          refine ⟨(r.item.id, v'), hv', ?_, ?_⟩
          · rw [hc]
          · rw [hc]
            exact Frac.le_trans _ _ _ (hc ▸ hlp r (List.mem_cons_self _ _))
              (hbp (r.item.id, prev) (assocFind_mem _ _ _ hfind)) hpd
              (Frac.le_of_not_lt _ _ hlt) hle2
        · exact ih _ hnd hbp hlp2 c hc

theorem dedupeGo_skip (l2 : List ScoredMemory) :
    ∀ best : List (String × ScoredMemory),
      (best.map (fun kv => kv.1)).Nodup →
      (∀ r ∈ l2, ∃ kv, kv ∈ best ∧ kv.1 = r.item.id ∧ r.score ≤ kv.2.score) →
      dedupeGo best l2 = best := by
  induction l2 with
  | nil =>
    intro best _ _
    rfl
  | cons r rest ih =>
    intro best hnd hcov
    obtain ⟨kv, hkv, hkey, hle⟩ := hcov r (List.mem_cons_self _ _)
    have hkveq : kv = (r.item.id, kv.2) := by rw [← hkey]
    have hfind : assocFind r.item.id best = some kv.2 :=
      assocFind_of_mem_nodup _ _ best hnd (hkveq ▸ hkv)
    rw [dedupeGo_cons]
    simp only [hfind]
    rw [if_neg (Frac.not_lt_of_le _ _ hle)]
    exact ih best hnd (fun r2 hr2 => hcov r2 (List.mem_cons_of_mem _ hr2))

theorem dedupeGo_append (xs ys : List ScoredMemory) :
    ∀ best : List (String × ScoredMemory),
      dedupeGo best (xs ++ ys) = dedupeGo (dedupeGo best xs) ys := by
  induction xs with
  | nil =>
    intro best
    rfl
  | cons r rest ih =>
    intro best
    rw [List.cons_append, dedupeGo_cons, dedupeGo_cons]
    cases hfind : assocFind r.item.id best with
    | none =>
      simp only [hfind]
      exact ih _
    | some prev =>
      simp only [hfind]
      by_cases hlt : prev.score < r.score
      · rw [if_pos hlt, if_pos hlt]
        exact ih _
      · rw [if_neg hlt, if_neg hlt]
        exact ih _

theorem hydrateAll_cons (M : MetadataStore) (r : ScoredMemory)
    (rest : List ScoredMemory) : hydrateAll M (r :: rest) =
    (if r.item.content.isSome && !r.item.tags.isEmpty then r :: hydrateAll M rest
     else
       match metaGet M r.item.id with
       | none => r :: hydrateAll M rest
       | some full => { r with item := full } :: hydrateAll M rest) := rfl

theorem hydrateAll_append (M : MetadataStore) (xs ys : List ScoredMemory) :
    hydrateAll M (xs ++ ys) = hydrateAll M xs ++ hydrateAll M ys := by
  induction xs with
  | nil => rfl
  | cons r rest ih =>
    rw [List.cons_append, hydrateAll_cons, hydrateAll_cons]
    split
    · rw [List.cons_append, ih]
    · cases hfind : metaGet M r.item.id with
      | none =>
        simp only [hfind]
        rw [List.cons_append, ih]
      | some full =>
        simp only [hfind]
        rw [List.cons_append, ih]

theorem hydrateAll_forward (M : MetadataStore) (l : List ScoredMemory)
    (hid : ∀ id it, metaGet M id = some it → it.id = id) :
    ∀ r ∈ l, ∃ r', r' ∈ hydrateAll M l ∧ r'.item.id = r.item.id ∧
      r'.score = r.score ∧ r'.tier = r.tier := by
  induction l with
  | nil =>
    intro r hr
    simp at hr
  | cons r0 rest ih =>
    intro r hr
    rw [hydrateAll_cons]
    split
    · rcases List.mem_cons.mp hr with hr | hr
      · exact ⟨r0, List.mem_cons_self _ _, by rw [hr], by rw [hr], by rw [hr]⟩
      · rcases ih r hr with ⟨r', hr', hprops⟩
        exact ⟨r', List.mem_cons_of_mem _ hr', hprops⟩
    · cases hfull : metaGet M r0.item.id with
      | none =>
        simp only [hfull]
        rcases List.mem_cons.mp hr with hr | hr
        · exact ⟨r0, List.mem_cons_self _ _, by rw [hr], by rw [hr], by rw [hr]⟩
        · rcases ih r hr with ⟨r', hr', hprops⟩
          exact ⟨r', List.mem_cons_of_mem _ hr', hprops⟩
      | some full =>
        simp only [hfull]
        rcases List.mem_cons.mp hr with hr | hr
        · refine ⟨{ r0 with item := full }, List.mem_cons_self _ _, ?_, by rw [hr], by rw [hr]⟩
          show full.id = r.item.id
          rw [hid _ _ hfull, ← hr]
        · rcases ih r hr with ⟨r', hr', hprops⟩
          exact ⟨r', List.mem_cons_of_mem _ hr', hprops⟩

theorem hydrateAll_backward (M : MetadataStore) (l : List ScoredMemory)
    (hid : ∀ id it, metaGet M id = some it → it.id = id) :
    ∀ r' ∈ hydrateAll M l, ∃ r, r ∈ l ∧ r'.item.id = r.item.id ∧
      r'.score = r.score ∧ r'.tier = r.tier := by
  intro r' hr'
  rcases hydrateAll_mem M l r' hr' with ⟨r, hr, hcase⟩
  rcases hcase with heq | ⟨full, hfull, heq⟩
  · exact ⟨r, hr, by rw [heq], by rw [heq], by rw [heq]⟩
  · refine ⟨r, hr, ?_, by rw [heq], by rw [heq]⟩
    rw [heq]
    exact hid _ _ hfull

theorem archive_rows_tier (V : SimpleVectorIndex) (q : MemoryQuery) (limit : Nat)
    (archive : List ScoredMemory)
    (h : SimpleVectorIndex.query V q (archiveFilters q) limit = .ok archive) :
    ∀ r ∈ archive, r.tier = .archive_index := by
  intro r hr
  rcases query_sound V q _ limit archive h r hr with ⟨p, _, _, _, htier, hrt⟩
  rw [hrt, htier]
  rfl

theorem mem_results2Of_right (hot archive : List ScoredMemory) (r : ScoredMemory)
    (h : r ∈ archive) : r ∈ results2Of hot archive := by
  unfold results2Of
  split
  · rename_i he
    cases archive with
    | nil => simp at h
    | cons a as => simp [List.isEmpty] at he
  · exact List.mem_append_right _ h

theorem retrieveCore_split (V : SimpleVectorIndex) (O : FileObjectStore)
    (plan : RetrievalPlan) (q : MemoryQuery) (now : Frac) (st : RetrievalState)
    (h : retrieveCore V O plan q now = .ok st) :
    ∃ l1 l2, st.results = l1 ++ l2 ∧ (∀ r ∈ l1, r.tier ≠ .cold) ∧
      (∀ r ∈ l1, 0 < r.score.den) ∧
      (∀ r ∈ l2, ∃ c, c ∈ l1 ∧ c.item.id = r.item.id ∧ r.score = c.score) := by
  rcases retrieveCore_inv V O plan q now st h with ⟨hot, hhot, hcase⟩
  have hhot_tier := hotSweep_sound V q _ _ hot hhot
  have hhot_pd := hotSweep_posden V q _ _ hot hhot
  have hhot_nc : ∀ r ∈ hot, r.tier ≠ .cold := by
    intro r hr
    rcases hhot_tier r hr with ⟨_, _, _, _, ht⟩
    rw [ht]
    simp
  rcases hcase with ⟨_, hst⟩ | ⟨_, archive, harch, _, hst⟩ |
    ⟨_, archive, cold, warns, harch, _, hcold, hst⟩
  · subst hst
    exact ⟨hot, [], (List.append_nil hot).symm, hhot_nc, hhot_pd,
      fun r hr => by simp at hr⟩
  · subst hst
    refine ⟨results2Of hot archive, [], (List.append_nil _).symm, ?_, ?_,
      fun r hr => by simp at hr⟩
    · intro r hr
      rcases mem_results2Of hot archive r hr with hr | hr
      · exact hhot_nc r hr
      · rw [archive_rows_tier V q _ archive harch r hr]
        simp
    · intro r hr
      rcases mem_results2Of hot archive r hr with hr | hr
      · exact hhot_pd r hr
      · exact query_posden V q _ _ archive harch r hr
  · subst hst
    refine ⟨results2Of hot archive, cold, rfl, ?_, ?_, ?_⟩
    · intro r hr
      rcases mem_results2Of hot archive r hr with hr | hr
      · exact hhot_nc r hr
      · rw [archive_rows_tier V q _ archive harch r hr]
        simp
    · intro r hr
      rcases mem_results2Of hot archive r hr with hr | hr
      · exact hhot_pd r hr
      · exact query_posden V q _ _ archive harch r hr
    · intro r hr
      rcases coldHydrate_sound O _ cold warns hcold r hr with
        ⟨c, hc, hcid, _, hcs, _, _⟩
      exact ⟨c, mem_results2Of_right hot archive c (mem_coldCandsOf plan archive c hc),
        hcid.symm, hcs⟩

theorem dedupe_no_cold (l1 l2 : List ScoredMemory)
    (h1 : ∀ r ∈ l1, r.tier ≠ .cold)
    (hp1 : ∀ r ∈ l1, 0 < r.score.den)
    (h2 : ∀ r ∈ l2, ∃ c, c ∈ l1 ∧ c.item.id = r.item.id ∧ r.score = c.score) :
    ∀ r ∈ dedupe (l1 ++ l2), r.tier ≠ .cold := by
  unfold dedupe
  rw [dedupeGo_append]
  have hnd0 : (([] : List (String × ScoredMemory)).map (fun kv => kv.1)).Nodup := by simp
  have hnd1 := dedupeGo_nodup l1 [] hnd0
  have hskip : dedupeGo (dedupeGo [] l1) l2 = dedupeGo [] l1 := by
    apply dedupeGo_skip l2 _ hnd1
    intro r hr
    obtain ⟨c, hc, hcid, hcs⟩ := h2 r hr
    obtain ⟨kv, hkv, hkey, hle⟩ :=
      dedupeGo_covers l1 [] hnd0 (by intro kv hkv; simp at hkv) hp1 c hc
    refine ⟨kv, hkv, by rw [hkey, hcid], ?_⟩
    rw [hcs]
    exact hle
  rw [hskip]
  intro r hr
  rcases mem_values_dedupeGo l1 [] r hr with hr2 | hr2
  · simp at hr2
  · exact h1 r hr2

/-- C5 amended: a cold hydrated copy never survives into the bundle —
it ties with its earlier archive-index original on id and score, and
`_dedupe` keeps the first of equal-scored duplicates — so no result or
block of a successful `retrieve` carries tier `cold` (and, vacuously,
every tier-cold result has populated content).  The hypothesis states
the metadata store's id-consistency (`get(id).id = id`), true of the
source store. -/
theorem cold_results_never_in_bundle (M : MetadataStore) (V : SimpleVectorIndex)
    (O : FileObjectStore) (plan : RetrievalPlan) (q : MemoryQuery) (now : Frac)
    (b : MemoryBundle)
    (hid : ∀ id it, metaGet M id = some it → it.id = id)
    (hb : retrieve M V O plan q now = .ok b) :
    (∀ r ∈ b.results, r.tier ≠ .cold) ∧
    (∀ r ∈ b.results, r.tier = .cold → r.item.content.isSome = true) ∧
    (∀ blk ∈ b.blocks, blk.tier ≠ .cold) := by
  rcases retrieve_ok_inv M V O plan q now b hb with ⟨st, hst, rfl⟩
  obtain ⟨l1, l2, hsplit, hnc, hpd1, hpart⟩ := retrieveCore_split V O plan q now st hst
  have hmain : ∀ r ∈ (finishBundle M plan q st).results, r.tier ≠ .cold := by
    intro r hr
    have hr2 : r ∈ rerank plan (dedupe (hydrateAll M st.results)) := hr
    have hr3 : r ∈ dedupe (hydrateAll M st.results) := mem_rerank plan _ r hr2
    rw [hsplit, hydrateAll_append] at hr3
    refine dedupe_no_cold (hydrateAll M l1) (hydrateAll M l2) ?_ ?_ ?_ r hr3
    · intro r' hr'
      obtain ⟨r0, hr0, _, _, ht⟩ := hydrateAll_backward M l1 hid r' hr'
      rw [ht]
      exact hnc r0 hr0
    · intro r' hr'
      obtain ⟨r0, hr0, _, hs, _⟩ := hydrateAll_backward M l1 hid r' hr'
      rw [hs]
      exact hpd1 r0 hr0
    · intro r' hr'
      obtain ⟨r0, hr0, hid0, hs0, _⟩ := hydrateAll_backward M l2 hid r' hr'
      obtain ⟨c0, hc0, hcid0, hcs0⟩ := hpart r0 hr0
      obtain ⟨c', hc', hcid', hcs', _⟩ := hydrateAll_forward M l1 hid c0 hc0
      refine ⟨c', hc', ?_, ?_⟩
      · rw [hcid', hcid0, ← hid0]
      · rw [hs0, hcs0, ← hcs']
  refine ⟨hmain, ?_, ?_⟩
  · intro r hr hcold
    exact absurd hcold (hmain r hr)
  · intro blk hblk
    have hblk2 : blk ∈ to_blocks (finishBundle M plan q st).results := hblk
    unfold to_blocks at hblk2
    rcases List.mem_map.mp hblk2 with ⟨r, hr, rfl⟩
    exact hmain r hr

/-- C5 counterexample: at the S2-style archived state the claim's
premises all hold — the item is archived with `pointer.object_key`
set, confidence after the archive stage is still below
`cold_fetch_confidence` (both escalation messages fire), the cold
payload is fetched and `used_tiers = [hot, archive_index, cold]` —
yet the block returned for the item has tier `archive_index`, not
`cold`, and no scored result or block in the bundle has tier `cold`. -/
theorem cold_block_counterexample :
    (match retrieve w2M w2V w2O {} w2q ⟨0, 1⟩ with
     | .ok b =>
       decide (b.used_tiers = [.hot, .archive_index, .cold]) &&
       decide (b.trace.escalations =
         ["hot confidence below threshold; searching archive",
          "archive confidence low; fetching cold payloads"]) &&
       decide (b.results.length = 1) &&
       b.results.all (fun r => r.tier != StorageTier.cold) &&
       b.blocks.all (fun blk => blk.tier != StorageTier.cold) &&
       b.blocks.any (fun blk => blk.item_id == "i1" && blk.tier == StorageTier.archive_index)
     | .error _ => false) = true := by decide

def w2Bundle : MemoryBundle :=
  match retrieve w2M w2V w2O {} w2q ⟨0, 1⟩ with
  | .ok b => b
  | .error _ => fallbackBundle

/-- C5 witness: the amended theorem applied at the archived state. -/
theorem cold_results_never_in_bundle_witness :
    retrieve w2M w2V w2O {} w2q ⟨0, 1⟩ = .ok w2Bundle ∧
    (∀ r ∈ w2Bundle.results, r.tier ≠ .cold) ∧
    (∀ blk ∈ w2Bundle.blocks, blk.tier ≠ .cold) := by
  have h := cold_results_never_in_bundle w2M w2V w2O {} w2q ⟨0, 1⟩ w2Bundle
    (by
      intro id it hit
      simp only [w2M, metaGet, assocFind] at hit
      split at hit
      · rename_i heq
        cases hit
        rw [← heq]
        rfl
      · cases hit)
    rfl
  exact ⟨rfl, h.1, h.2.2⟩


theorem startsWithSlash_append (root s : String)
    (h : startsWithSlash root = true) : startsWithSlash (root ++ s) = true := by
  unfold startsWithSlash at h ⊢
  rw [String.data_append]
  cases hd : root.data with
  | nil =>
    rw [hd] at h
    cases h
  | cons c cs =>
    rw [hd] at h
    exact h

theorem endsWithDotJson_append_json (x : String) :
    endsWithDotJson (x ++ ".json") = true := by
  unfold endsWithDotJson
  rw [String.data_append, List.reverse_append]
  rw [show (".json".data.reverse) = ['n', 'o', 's', 'j', '.'] from rfl]
  rfl

theorem endsWithDotJson_daily_notes (x : String) :
    endsWithDotJson (x ++ "/daily_notes") = false := by
  unfold endsWithDotJson
  rw [String.data_append, List.reverse_append]
  rw [show ("/daily_notes".data.reverse) =
    ['s', 'e', 't', 'o', 'n', '_', 'y', 'l', 'i', 'a', 'd', '/'] from rfl]
  rfl

theorem endsWithDotJson_append_left (x y : String)
    (h : endsWithDotJson y = true) : endsWithDotJson (x ++ y) = true := by
  unfold endsWithDotJson at h ⊢
  rw [String.data_append, List.reverse_append]
  split at h
  · rename_i heq
    rw [heq]
    rfl
  · cases h

theorem resolvePath_eq (root key : String) :
    resolvePath root key =
      if startsWithSlash (if endsWithDotJson key then key else key ++ ".json")
      then (if endsWithDotJson key then key else key ++ ".json")
      else root ++ "/" ++ (if endsWithDotJson key then key else key ++ ".json") := rfl

theorem rel_ends_json (key : String) :
    endsWithDotJson (if endsWithDotJson key then key else key ++ ".json") = true := by
  split
  · rename_i h2
    exact h2
  · exact endsWithDotJson_append_json key

theorem endsWithDotJson_resolvePath (root key : String) :
    endsWithDotJson (resolvePath root key) = true := by
  have hrel := rel_ends_json key
  rw [resolvePath_eq]
  revert hrel
  generalize (if endsWithDotJson key = true then key else key ++ ".json") = rel
  intro hrel
  split
  · exact hrel
  · exact endsWithDotJson_append_left (root ++ "/") rel hrel

theorem resolvePath_abs (root key : String) (h : startsWithSlash root = true) :
    startsWithSlash (resolvePath root key) = true := by
  rw [resolvePath_eq]
  generalize (if endsWithDotJson key = true then key else key ++ ".json") = rel
  split
  · rename_i h2
    exact h2
  · exact startsWithSlash_append (root ++ "/") rel (startsWithSlash_append root "/" h)

theorem resolvePath_idem (root key : String) (h : startsWithSlash root = true) :
    resolvePath root (resolvePath root key) = resolvePath root key := by
  rw [resolvePath_eq root (resolvePath root key)]
  rw [if_pos (endsWithDotJson_resolvePath root key)]
  rw [if_pos (resolvePath_abs root key h)]

theorem objAppend_find_self (O : FileObjectStore) (k : String) (pl : JsonVal) :
    ∃ xs, assocFind (resolvePath O.root k) (objAppend O k pl).2.files =
      some (FileContent.val (.arr xs)) ∧ pl ∈ xs := by
  refine ⟨(match assocFind (resolvePath O.root k) O.files with
    | none => []
    | some FileContent.invalid => []
    | some (FileContent.val (JsonVal.arr xs)) => xs
    | some (FileContent.val _) => []) ++ [pl], ?_,
    List.mem_append_right _ (List.mem_singleton.mpr rfl)⟩
  exact assocFind_assocSet_self _ _ _

theorem objAppend_preserves (O : FileObjectStore) (k : String) (pl : JsonVal)
    (p : String) (ys : List JsonVal) (e : JsonVal)
    (hfind : assocFind p O.files = some (FileContent.val (.arr ys))) (he : e ∈ ys) :
    ∃ zs, assocFind p (objAppend O k pl).2.files =
      some (FileContent.val (.arr zs)) ∧ e ∈ zs := by
  by_cases hp : p = resolvePath O.root k
  · subst hp
    have hfiles : (objAppend O k pl).2.files =
        assocSet (resolvePath O.root k) (FileContent.val (.arr (ys ++ [pl]))) O.files := by
      show assocSet (resolvePath O.root k) (FileContent.val (.arr ((match assocFind (resolvePath O.root k) O.files with
        | none => []
        | some FileContent.invalid => []
        | some (FileContent.val (JsonVal.arr xs)) => xs
        | some (FileContent.val _) => []) ++ [pl]))) O.files = _
      rw [hfind]
    refine ⟨ys ++ [pl], ?_, List.mem_append_left _ he⟩
    rw [hfiles]
    exact assocFind_assocSet_self _ _ _
  · refine ⟨ys, ?_, he⟩
    have hfiles : (objAppend O k pl).2.files =
        assocSet (resolvePath O.root k) (FileContent.val (.arr
          ((match assocFind (resolvePath O.root k) O.files with
            | none => []
            | some FileContent.invalid => []
            | some (FileContent.val (JsonVal.arr xs)) => xs
            | some (FileContent.val _) => []) ++ [pl]))) O.files := rfl
    rw [hfiles, assocFind_assocSet_other _ _ _ _ hp]
    exact hfind

theorem archiveItems_cons_files (owner : String) (now : Frac) (item : MemoryItem)
    (rest : List MemoryItem) (M : MetadataStore) (O : FileObjectStore)
    (V : SimpleVectorIndex) :
    (archiveItems owner now (item :: rest) M O V).2.1 =
      (archiveItems owner now rest (metaUpsert M (archivedItemOf owner now O item) now)
        (objAppend O (archiveKeyOf owner item) (archivePayload item)).2
        (index_archive V (archivedItemOf owner now O item))).2.1 := rfl

theorem archiveItems_cons_archived (owner : String) (now : Frac) (item : MemoryItem)
    (rest : List MemoryItem) (M : MetadataStore) (O : FileObjectStore)
    (V : SimpleVectorIndex) :
    (archiveItems owner now (item :: rest) M O V).2.2.2 =
      archivedItemOf owner now O item ::
        (archiveItems owner now rest (metaUpsert M (archivedItemOf owner now O item) now)
          (objAppend O (archiveKeyOf owner item) (archivePayload item)).2
          (index_archive V (archivedItemOf owner now O item))).2.2.2 := rfl

theorem archiveItems_root (owner : String) (now : Frac) :
    ∀ (L : List MemoryItem) (M : MetadataStore) (O : FileObjectStore)
      (V : SimpleVectorIndex),
      (archiveItems owner now L M O V).2.1.root = O.root := by
  intro L
  induction L with
  | nil => intro M O V; rfl
  | cons it rest ih =>
    intro M O V
    rw [archiveItems_cons_files]
    exact ih _ _ _

theorem archiveItems_preserves (owner : String) (now : Frac) :
    ∀ (L : List MemoryItem) (M : MetadataStore) (O : FileObjectStore)
      (V : SimpleVectorIndex) (p : String) (ys : List JsonVal) (e : JsonVal),
      assocFind p O.files = some (FileContent.val (.arr ys)) → e ∈ ys →
      ∃ zs, assocFind p (archiveItems owner now L M O V).2.1.files =
        some (FileContent.val (.arr zs)) ∧ e ∈ zs := by
  intro L
  induction L with
  | nil => intro M O V p ys e hf he; exact ⟨ys, hf, he⟩
  | cons it rest ih =>
    intro M O V p ys e hf he
    obtain ⟨zs1, hf1, he1⟩ :=
      objAppend_preserves O (archiveKeyOf owner it) (archivePayload it) p ys e hf he
    obtain ⟨zs, hz1, hz2⟩ := ih (metaUpsert M (archivedItemOf owner now O it) now)
      (objAppend O (archiveKeyOf owner it) (archivePayload it)).2
      (index_archive V (archivedItemOf owner now O it)) p zs1 e hf1 he1
    refine ⟨zs, ?_, hz2⟩
    rw [archiveItems_cons_files]
    exact hz1

theorem archiveItems_spec (owner : String) (now : Frac) :
    ∀ (L : List MemoryItem) (M : MetadataStore) (O : FileObjectStore)
      (V : SimpleVectorIndex) (item : MemoryItem), item ∈ L →
      ∃ item', item' ∈ (archiveItems owner now L M O V).2.2.2 ∧
        item' = { item with
          pointer_object_key := some (resolvePath O.root (archiveKeyOf owner item)),
          pointer_archive_key := some (archiveKeyOf owner item),
          tier := StorageTier.cold,
          updated_at := now } ∧
        ∃ zs, assocFind (resolvePath O.root (archiveKeyOf owner item))
            (archiveItems owner now L M O V).2.1.files =
          some (FileContent.val (.arr zs)) ∧ archivePayload item ∈ zs := by
  intro L
  induction L with
  | nil =>
    intro M O V item h
    cases h
  | cons it rest ih =>
    intro M O V item hmem
    rcases List.mem_cons.mp hmem with heq | htail
    · subst heq
      obtain ⟨xs, hfind, hin⟩ :=
        objAppend_find_self O (archiveKeyOf owner item) (archivePayload item)
      obtain ⟨zs, hz1, hz2⟩ := archiveItems_preserves owner now rest
        (metaUpsert M (archivedItemOf owner now O item) now)
        (objAppend O (archiveKeyOf owner item) (archivePayload item)).2
        (index_archive V (archivedItemOf owner now O item))
        (resolvePath O.root (archiveKeyOf owner item)) xs (archivePayload item) hfind hin
      refine ⟨archivedItemOf owner now O item, ?_, rfl, zs, ?_, hz2⟩
      · rw [archiveItems_cons_archived]
        exact List.mem_cons_self _ _
      · rw [archiveItems_cons_files]
        exact hz1
    · obtain ⟨item', h1, h2, zs, h3, h4⟩ := ih
        (metaUpsert M (archivedItemOf owner now O it) now)
        (objAppend O (archiveKeyOf owner it) (archivePayload it)).2
        (index_archive V (archivedItemOf owner now O it)) item htail
      refine ⟨item', ?_, h2, zs, ?_, h4⟩
      · rw [archiveItems_cons_archived]
        exact List.mem_cons_of_mem _ h1
      · rw [archiveItems_cons_files]
        exact h3

/-- C6: for any hot, non-working item of the owner (object-store root
absolute, as `FileObjectStore.__init__` resolves it), `ArchiverWorker.run_once`
returns an archived copy with the same id, tier `cold`,
`pointer.archive_key` the logical daily-notes key and
`pointer.object_key` the physical path; fetching that path from the
resulting object store yields a JSON list containing an entry whose
`"id"` field equals the item's id. -/
theorem archival_round_trip (M : MetadataStore) (O : FileObjectStore)
    (V : SimpleVectorIndex) (owner : String) (now : Frac) (item : MemoryItem)
    (hmem : item ∈ metaListByOwner M owner)
    (htier : item.tier = StorageTier.hot)
    (htype : item.type ≠ MemoryType.working)
    (habs : startsWithSlash O.root = true) :
    ∃ item', item' ∈ (archiverRunOnce M O V owner now).2.2.2 ∧
      item'.id = item.id ∧
      item'.tier = StorageTier.cold ∧
      item'.pointer_archive_key =
        some (owner ++ "/" ++ datePath item.created_at ++ "/daily_notes") ∧
      item'.pointer_object_key =
        some (resolvePath O.root (owner ++ "/" ++ datePath item.created_at ++ "/daily_notes")) ∧
      ∃ zs, objGet (archiverRunOnce M O V owner now).2.1
          (resolvePath O.root (owner ++ "/" ++ datePath item.created_at ++ "/daily_notes")) =
        .ok (some (.arr zs)) ∧
        ∃ fs, JsonVal.obj fs ∈ zs ∧ objLookup "id" fs = some (.str item.id) := by
  have hfil : item ∈ (metaListByOwner M owner).filter
      (fun i => i.tier = StorageTier.hot && i.type ≠ MemoryType.working) := by
    apply List.mem_filter.mpr
    refine ⟨hmem, ?_⟩
    simp [htier, htype]
  simp only [archiverRunOnce]
  obtain ⟨item', h1, h2, zs, h3, h4⟩ := archiveItems_spec owner now _ M O V item hfil
  have hroot : (archiveItems owner now ((metaListByOwner M owner).filter
      (fun i => i.tier = StorageTier.hot && i.type ≠ MemoryType.working)) M O V).2.1.root =
      O.root := archiveItems_root owner now _ M O V
  refine ⟨item', h1, ?_, ?_, ?_, ?_, zs, ?_, ?_⟩
  · rw [h2]
  · rw [h2]
  · rw [h2]
    rfl
  · rw [h2]
    rfl
  · unfold objGet
    simp only [archiveKeyOf] at h3
    rw [hroot, resolvePath_idem O.root _ habs, h3]
  · exact ⟨[("id", JsonVal.str item.id),
      ("summary", JsonVal.str item.summary),
      ("content", item.content.getD JsonVal.null),
      ("tags", JsonVal.arr (item.tags.map JsonVal.str)),
      ("type", JsonVal.str item.type.value),
      ("owner", JsonVal.str item.owner),
      ("created_at", JsonVal.str (fracStr item.created_at))], h4, rfl⟩

def w6Item : MemoryItem :=
  { id := "i6", type := .episodic, owner := "u6", summary := "note",
    created_at := ⟨0, 1⟩, updated_at := ⟨0, 1⟩ }

def w6M : MetadataStore := [("i6", w6Item)]

def w6O : FileObjectStore := { root := "/data" }

def w6V : SimpleVectorIndex := {}

theorem archival_round_trip_witness :
    w6Item ∈ metaListByOwner w6M "u6" ∧
    w6Item.tier = StorageTier.hot ∧
    w6Item.type ≠ MemoryType.working ∧
    startsWithSlash w6O.root = true ∧
    (∃ item', item' ∈ (archiverRunOnce w6M w6O w6V "u6" ⟨5, 1⟩).2.2.2 ∧
      item'.id = w6Item.id ∧
      item'.tier = StorageTier.cold ∧
      item'.pointer_archive_key =
        some ("u6" ++ "/" ++ datePath w6Item.created_at ++ "/daily_notes") ∧
      item'.pointer_object_key =
        some (resolvePath w6O.root ("u6" ++ "/" ++ datePath w6Item.created_at ++ "/daily_notes")) ∧
      ∃ zs, objGet (archiverRunOnce w6M w6O w6V "u6" ⟨5, 1⟩).2.1
          (resolvePath w6O.root ("u6" ++ "/" ++ datePath w6Item.created_at ++ "/daily_notes")) =
        .ok (some (.arr zs)) ∧
        ∃ fs, JsonVal.obj fs ∈ zs ∧ objLookup "id" fs = some (.str w6Item.id)) :=
  ⟨List.mem_singleton.mpr rfl, rfl, by decide, rfl,
   archival_round_trip w6M w6O w6V "u6" ⟨5, 1⟩ w6Item
     (List.mem_singleton.mpr rfl) rfl (by decide) rfl⟩

theorem assocSet_of_find_none {α : Type} (key : String) (value : α) :
    ∀ (l : List (String × α)), assocFind key l = none →
      assocSet key value l = l ++ [(key, value)] := by
  intro l
  induction l with
  | nil => intro h; rfl
  | cons kv rest ih =>
    intro h
    unfold assocFind at h
    by_cases hk : kv.1 = key
    · rw [if_pos hk] at h
      cases h
    · rw [if_neg hk] at h
      show assocSet key value (kv :: rest) = (kv :: rest) ++ [(key, value)]
      unfold assocSet
      rw [if_neg hk]
      rw [ih h]
      rfl

theorem metaGet_delete_self (M : MetadataStore) (k : String) :
    metaGet (metaDelete M k) k = none := by
  induction M with
  | nil => rfl
  | cons kv rest ih =>
    show metaGet (List.filter (fun kv => kv.1 ≠ k) (kv :: rest)) k = none
    rw [List.filter_cons]
    by_cases h : kv.1 = k
    · rw [if_neg (by simp [h])]
      exact ih
    · rw [if_pos (by simp [h])]
      show assocFind k (kv :: List.filter (fun kv => kv.1 ≠ k) rest) = none
      unfold assocFind
      rw [if_neg h]
      exact ih

theorem metaGet_delete_other (M : MetadataStore) (k id : String) (h : id ≠ k) :
    metaGet (metaDelete M k) id = metaGet M id := by
  induction M with
  | nil => rfl
  | cons kv rest ih =>
    show metaGet (List.filter (fun kv => kv.1 ≠ k) (kv :: rest)) id = _
    rw [List.filter_cons]
    by_cases hk : kv.1 = k
    · rw [if_neg (by simp [hk])]
      have hskip : metaGet (kv :: rest) id = metaGet rest id := by
        show (if kv.1 = id then some kv.2 else assocFind id rest) = assocFind id rest
        rw [if_neg (fun hc : kv.1 = id => h (hc ▸ hk))]
      rw [hskip]
      exact ih
    · rw [if_pos (by simp [hk])]
      show assocFind id (kv :: List.filter (fun kv => kv.1 ≠ k) rest) =
        assocFind id (kv :: rest)
      unfold assocFind
      by_cases hid : kv.1 = id
      · rw [if_pos hid, if_pos hid]
      · rw [if_neg hid, if_neg hid]
        exact ih

theorem compactFold_none (now : Frac) :
    ∀ (items : List MemoryItem) (M : MetadataStore) (id : String),
      metaGet M id = none →
      metaGet (items.foldl (fun acc item =>
        if item.is_expired now then metaDelete acc item.id else acc) M) id = none := by
  intro items
  induction items with
  | nil => intro M id h; exact h
  | cons it rest ih =>
    intro M id h
    rw [List.foldl_cons]
    by_cases he : it.is_expired now = true
    · rw [if_pos he]
      apply ih
      by_cases hid : id = it.id
      · rw [hid]
        exact metaGet_delete_self M it.id
      · rw [metaGet_delete_other M it.id id hid]
        exact h
    · rw [if_neg he]
      exact ih M id h

theorem compactFold_deletes (now : Frac) :
    ∀ (items : List MemoryItem) (M : MetadataStore) (id : String),
      (∃ it ∈ items, it.id = id ∧ it.is_expired now = true) →
      metaGet (items.foldl (fun acc item =>
        if item.is_expired now then metaDelete acc item.id else acc) M) id = none := by
  intro items
  induction items with
  | nil =>
    intro M id h
    obtain ⟨it, hin, _⟩ := h
    cases hin
  | cons it0 rest ih =>
    intro M id h
    obtain ⟨it, hin, hid, hexp⟩ := h
    rw [List.foldl_cons]
    rcases List.mem_cons.mp hin with heq | htail
    · subst heq
      rw [if_pos hexp]
      apply compactFold_none
      rw [← hid]
      exact metaGet_delete_self M it.id
    · by_cases he : it0.is_expired now = true
      · rw [if_pos he]
        exact ih _ id ⟨it, htail, hid, hexp⟩
      · rw [if_neg he]
        exact ih _ id ⟨it, htail, hid, hexp⟩

theorem metaListByOwner_append (M : MetadataStore) (k : String) (v : MemoryItem)
    (owner : String) (hv : v.owner = owner) :
    v ∈ metaListByOwner (M ++ [(k, v)]) owner := by
  unfold metaListByOwner
  apply List.mem_filter.mpr
  refine ⟨?_, by simp [hv]⟩
  rw [List.map_append]
  exact List.mem_append_right _ (List.mem_singleton.mpr rfl)

theorem write_async_item (cfg : MemorySystemConfig) (pol : MemoryRoutingPolicy)
    (S : MemorySystemState) (event : MemoryItem) (now : Frac) :
    (write_async cfg pol S event now).2 =
      (if event.type = .working ∧ event.ttl_seconds = none then
        { event with ttl_seconds := some cfg.working_ttl_seconds }
       else event) := rfl

theorem write_async_meta (cfg : MemorySystemConfig) (pol : MemoryRoutingPolicy)
    (S : MemorySystemState) (event : MemoryItem) (now : Frac) :
    (write_async cfg pol S event now).1.metadata_store =
      (if (pol.route (write_async cfg pol S event now).2).write_hot then
        metaUpsert S.metadata_store (write_async cfg pol S event now).2 now
       else S.metadata_store) := rfl

theorem write_async_fields (cfg : MemorySystemConfig) (pol : MemoryRoutingPolicy)
    (S : MemorySystemState) (event : MemoryItem) (now : Frac) :
    (write_async cfg pol S event now).2.id = event.id ∧
    (write_async cfg pol S event now).2.owner = event.owner ∧
    (write_async cfg pol S event now).2.created_at = event.created_at := by
  rw [write_async_item]
  split <;> exact ⟨rfl, rfl, rfl⟩

/-- C7: writing a working item with no `ttl_seconds` populates it with
the configured `working_ttl_seconds` (default 3600); and for any event
whose written item carries `ttl_seconds = D` and was not previously
stored, once the clock has advanced to `created_at + D` or beyond,
`Compactor.run_once(owner)` removes it, so `metadata_store.get(id)`
returns null. -/
theorem working_ttl_expiry (cfg : MemorySystemConfig) (pol : MemoryRoutingPolicy)
    (S : MemorySystemState) (event : MemoryItem) (now : Frac) (owner : String)
    (D : Frac) (now' : Frac)
    (howner : event.owner = owner)
    (hfresh : metaGet S.metadata_store event.id = none)
    (httl : (write_async cfg pol S event now).2.ttl_seconds = some D)
    (hexp : event.created_at + D ≤ now') :
    metaGet (compactorRunOnce (write_async cfg pol S event now).1.metadata_store owner now').1
      event.id = none ∧
    (event.type = .working → event.ttl_seconds = none →
      (write_async cfg pol S event now).2.ttl_seconds = some cfg.working_ttl_seconds) ∧
    ({} : MemorySystemConfig).working_ttl_seconds = ⟨3600, 1⟩ := by
  refine ⟨?_, ?_, rfl⟩
  · obtain ⟨hid, hown, hcre⟩ := write_async_fields cfg pol S event now
    have hmeta := write_async_meta cfg pol S event now
    show metaGet ((metaListByOwner (write_async cfg pol S event now).1.metadata_store owner).foldl
        (fun acc item => if item.is_expired now' then metaDelete acc item.id else acc)
        (write_async cfg pol S event now).1.metadata_store) event.id = none
    rw [hmeta]
    revert httl hid hown hcre
    generalize (write_async cfg pol S event now).2 = item1
    intro httl hid hown hcre
    split
    · have hup : metaUpsert S.metadata_store item1 now =
          S.metadata_store ++ [(item1.id, { item1 with updated_at := now })] := by
        unfold metaUpsert
        apply assocSet_of_find_none
        rw [hid]
        exact hfresh
      rw [hup]
      apply compactFold_deletes
      refine ⟨{ item1 with updated_at := now }, ?_, hid, ?_⟩
      · apply metaListByOwner_append
        show item1.owner = owner
        rw [hown]
        exact howner
      · show (match item1.ttl_seconds with
          | none => false
          | some ttl => decide (item1.created_at + ttl ≤ now')) = true
        rw [httl]
        show decide (item1.created_at + D ≤ now') = true
        rw [hcre]
        exact decide_eq_true hexp
    · exact compactFold_none now' _ _ event.id hfresh
  · intro h1 h2
    rw [write_async_item]
    rw [if_pos ⟨h1, h2⟩]

def w7Item : MemoryItem :=
  { id := "i7", type := .working, owner := "u7", summary := "scratch",
    created_at := ⟨0, 1⟩, updated_at := ⟨0, 1⟩ }

def w7S : MemorySystemState :=
  { metadata_store := [], vector_index := {}, graph_store := [], feature_store := [] }

theorem working_ttl_expiry_witness :
    w7Item.owner = "u7" ∧
    metaGet w7S.metadata_store w7Item.id = none ∧
    (write_async {} defaultRoutingPolicy w7S w7Item ⟨0, 1⟩).2.ttl_seconds = some ⟨3600, 1⟩ ∧
    w7Item.created_at + ⟨3600, 1⟩ ≤ ⟨3601, 1⟩ ∧
    metaGet (compactorRunOnce
        (write_async {} defaultRoutingPolicy w7S w7Item ⟨0, 1⟩).1.metadata_store
        "u7" ⟨3601, 1⟩).1 w7Item.id = none :=
  ⟨rfl, rfl, rfl, by decide,
   (working_ttl_expiry {} defaultRoutingPolicy w7S w7Item ⟨0, 1⟩ "u7" ⟨3600, 1⟩ ⟨3601, 1⟩
     rfl rfl rfl (by decide)).1⟩

def w8Item : MemoryItem :=
  { id := "i8", type := .episodic, owner := "u8", summary := "alpha",
    created_at := ⟨0, 1⟩, updated_at := ⟨0, 1⟩, tier := .cold,
    pointer_object_key := some "/cold/u8/0/daily_notes.json",
    pointer_archive_key := some "u8/0/daily_notes",
    content := none, tags := ["t1"] }

def w8V : SimpleVectorIndex := index_archive {} w8Item

def w8O : FileObjectStore :=
  { root := "/cold",
    files := [("/cold/u8/0/daily_notes.json", .val (.arr [archivePayload w8Item]))] }

def w8M : MetadataStore := [("i8", w8Item)]

def w8q : MemoryQuery := { text := "alpha beta gamma", owner := "u8" }

def w8qTyped : MemoryQuery :=
  { text := "alpha beta gamma", owner := "u8", types := some allTypes }

/-- C8: the spec says the archive escalation queries the vector index
with the type filter `T` defaulting to all four memory types when the
query leaves `types` unset, and that the query succeeds in that case
too. In the code `retrieve` passes the raw `query.types` (i.e. `None`)
to `SimpleVectorIndex.query`, whose `set(...)` comprehension iterates
over it and raises `TypeError: 'NoneType' object is not iterable`; the
identical state and query succeed, reaching `archive_index`, only when
`types` is spelled out. -/
theorem archive_unset_types_crash :
    ((match retrieve w8M w8V w8O {} w8q ⟨0, 1⟩ with
      | .error e => e == "TypeError: NoneType is not iterable"
      | .ok _ => false) = true) ∧
    ((match retrieve w8M w8V w8O {} w8qTyped ⟨0, 1⟩ with
      | .ok b => StorageTier.archive_index ∈ b.used_tiers
      | .error _ => false) = true) := by
  refine ⟨by decide, ?_⟩
  show (match retrieve w8M w8V w8O {} w8qTyped ⟨0, 1⟩ with
    | .ok b => decide (StorageTier.archive_index ∈ b.used_tiers)
    | .error _ => false) = true
  decide

theorem to_item_summary_default_witness :
    ({ content := .str "hello", owner := "u9" } : MemoryEvent).summary = none ∧
    (MemoryEvent.to_item { content := .str "hello", owner := "u9" } "id9" ⟨0, 1⟩).summary =
      ({ content := .str "hello", owner := "u9" } : MemoryEvent).defaultSummary :=
  ⟨rfl, (to_item_summary_default_and_nonempty
    { content := .str "hello", owner := "u9" } "id9" ⟨0, 1⟩).1 rfl⟩
